import Mathlib

set_option maxRecDepth 100000

/-!
Verification development for the CUDA scan / peak-finding / circle-renderer
repository.  The C/CUDA sources are shallowly embedded: device memory is a
total function `ℤ → ℤ` (indices outside an allocation model out-of-bounds or
uninitialized storage), C `int` arithmetic is modelled with unbounded `ℤ`
(no intermediate value in the verified ranges overflows 32 bits), and
`float` arithmetic in the renderer is modelled with `ℚ` (the verified code
paths use only ring operations and comparisons, which are exact).
Kernel launches are modelled by iterating the per-thread body over the
launched thread indices; for every kernel whose concurrent writes target
pairwise distinct addresses this is faithful to any device schedule, and
each such disjointness fact is proved or noted where the kernel is embedded.
-/

namespace Scan

/-- `nextPow2` from `src/unnamed/part_000`: the branch-free round-up to a
power of two via `n--; n |= n >> 1; ...; n |= n >> 16; n++`.  C `>>` on a
nonnegative `int` is `Int.shiftRight`; on the (reachable only for `n = 0`)
negative intermediate `-1` we use the arithmetic-shift semantics that every
mainstream compiler gives a signed `int`. -/
def nextPow2 (n : ℤ) : ℤ :=
  let a0 := n - 1
  let a1 := Int.lor a0 (a0 >>> (1 : ℕ))
  let a2 := Int.lor a1 (a1 >>> (2 : ℕ))
  let a3 := Int.lor a2 (a2 >>> (4 : ℕ))
  let a4 := Int.lor a3 (a3 >>> (8 : ℕ))
  let a5 := Int.lor a4 (a4 >>> (16 : ℕ))
  a5 + 1

/-- The same OR-cascade on `ℕ`, used to reason about `nextPow2` on
nonnegative inputs. -/
def fillBits (m : ℕ) : ℕ :=
  let a1 := m ||| (m >>> 1)
  let a2 := a1 ||| (a1 >>> 2)
  let a3 := a2 ||| (a2 >>> 4)
  let a4 := a3 ||| (a3 >>> 8)
  a4 ||| (a4 >>> 16)

/-- One fully parallel up-sweep level (`upsweep_kernel`, launched over all
thread indices `index` with `i = index * twod1`, guarded by `i < length`):
`device_data[i+twod1-1] += device_data[i+twod-1]`.  Every launched-and-live
thread with live index `i` (`0 ≤ i < L`, `twod1 ∣ i`) writes the single cell
`j = i + twod1 - 1`, reading cell `j - twod`; writes are pairwise distinct and
no write address is read by another thread, so the simultaneous-update
function below (conditions phrased in `i = j + 1 - twod1`) is faithful to any
device schedule. -/
def upsweepPass (L twod : ℤ) (d : ℤ → ℤ) : ℤ → ℤ := fun j =>
  if 0 ≤ j + 1 - 2 * twod ∧ j + 1 - 2 * twod < L ∧ (j + 1 - 2 * twod) % (2 * twod) = 0 then
    d j + d (j - twod)
  else d j

/-- One fully parallel down-sweep level (`downsweep_kernel`): for each live
`i` (multiple of `twod1` below `L`), `t = d[i+twod-1]`;
`d[i+twod-1] = d[i+twod1-1]`; `d[i+twod1-1] += t`.  Cell `j = i+twod1-1`
(first branch, `i = j + 1 - twod1`) receives `d j + d (j-twod)`; cell
`j = i+twod-1` (second branch, `i = j + 1 - twod`) receives `d (j+twod)`.
The two branch conditions are disjoint for `0 < twod` and each thread's two
writes target distinct cells not accessed by any other thread. -/
def downsweepPass (L twod : ℤ) (d : ℤ → ℤ) : ℤ → ℤ := fun j =>
  if 0 ≤ j + 1 - 2 * twod ∧ j + 1 - 2 * twod < L ∧ (j + 1 - 2 * twod) % (2 * twod) = 0 then
    d j + d (j - twod)
  else if 0 ≤ j + 1 - twod ∧ j + 1 - twod < L ∧ (j + 1 - twod) % (2 * twod) = 0 then
    d (j + twod)
  else d j

/-- The host-side up-sweep loop `for (twod = 1; twod < length; twod *= 2)`.
The C loop is entered with `twod = 1` and doubles it, so `0 < twod` is an
invariant of the source; it appears in the guard only to make termination
structural. -/
def upsweepLoop (L twod : ℤ) (d : ℤ → ℤ) : ℤ → ℤ :=
  if 0 < twod ∧ twod < L then upsweepLoop L (2 * twod) (upsweepPass L twod d) else d
termination_by (L - twod).toNat
decreasing_by
  rename_i h
  omega

/-- The host-side down-sweep loop `for (twod = length/2; twod >= 1; twod /= 2)`. -/
def downsweepLoop (L twod : ℤ) (d : ℤ → ℤ) : ℤ → ℤ :=
  if 1 ≤ twod then downsweepLoop L (twod / 2) (downsweepPass L twod d) else d
termination_by twod.toNat
decreasing_by
  rename_i h
  omega

/-- `exclusive_scan(device_data, length)` from `src/unnamed/part_000`:
`length = nextPow2(length)`, the up-sweep loop, then
`cudaMemset(device_data+length-1, 0, sizeof(int))`, then the down-sweep
loop.  The state is the whole of device memory, `ℤ → ℤ`. -/
def exclusive_scan (length : ℤ) (d : ℤ → ℤ) : ℤ → ℤ :=
  let L := nextPow2 length
  let d1 := upsweepLoop L 1 d
  let d2 : ℤ → ℤ := fun j => if j = L - 1 then 0 else d1 j
  downsweepLoop L (L / 2) d2

/-- Passes `upsweepPass` with `twod = 2^j, 2^(j+1), ..., 2^(j+m-1)` in order. -/
def upsweepPasses (L : ℤ) : ℕ → ℕ → (ℤ → ℤ) → (ℤ → ℤ)
  | _, 0, d => d
  | j, m + 1, d => upsweepPasses L (j + 1) m (upsweepPass L (2 ^ j) d)

/-- Passes `downsweepPass` with `twod = 2^(m-1), ..., 2^1, 2^0` in order. -/
def downsweepPasses (L : ℤ) : ℕ → (ℤ → ℤ) → (ℤ → ℤ)
  | 0, d => d
  | m + 1, d => downsweepPasses L m (downsweepPass L (2 ^ m) d)

/-- Sum of `d` over the integer interval `[a, b)`. -/
def S (d : ℤ → ℤ) (a b : ℤ) : ℤ := ∑ t ∈ Finset.Ico a b, d t

/-- 2-adic valuation of `j + 1`, for `0 ≤ j`. -/
def nu (j : ℤ) : ℕ := padicValNat 2 (j + 1).toNat

/-- Up-sweep invariant: after the passes `twod = 2^0 .. 2^(m-1)`, cell `j`
holds the sum of the original contents of the aligned block of size
`2^(min m (nu j))` ending at `j`. -/
def Iup (d₀ : ℤ → ℤ) (L : ℤ) (m : ℕ) (u : ℤ → ℤ) : Prop :=
  ∀ j, 0 ≤ j → j < L → u j = S d₀ (j + 1 - 2 ^ (min m (nu j))) (j + 1)

/-- Down-sweep invariant: with all passes of exponent `≥ m` done, a cell `j`
whose `2^m`-block ends at `j` holds the prefix sum up to that block's start,
and every other cell still holds its up-sweep value. -/
def Idown (d₀ : ℤ → ℤ) (L : ℤ) (m : ℕ) (e : ℤ → ℤ) : Prop :=
  ∀ j, 0 ≤ j → j < L →
    ((j + 1) % (2 : ℤ) ^ m = 0 → e j = S d₀ 0 (j + 1 - 2 ^ m)) ∧
    ((j + 1) % (2 : ℤ) ^ m ≠ 0 → e j = S d₀ (j + 1 - 2 ^ (nu j)) (j + 1))

/-- The `cudaScan` wrapper from `src/unnamed/part_000`: it allocates a fresh
device buffer of `nextPow2 (end - inarray)` ints (uninitialized contents
modelled by `ddata0`), copies the `n` input cells in, runs `exclusive_scan`,
and copies the `n` result cells back over `resultarray`. -/
def cudaScan (inarray : ℤ → ℤ) (n : ℤ) (resultarray ddata0 : ℤ → ℤ) : ℤ → ℤ :=
  let dd : ℤ → ℤ := fun i => if 0 ≤ i ∧ i < n then inarray i else ddata0 i
  let scanned := exclusive_scan n dd
  fun i => if 0 ≤ i ∧ i < n then scanned i else resultarray i

def threadsPerBlock : ℤ := 512

/-- Threads launched by `find_peaks` for both of its kernels:
`blocks * threadsPerBlock` with `blocks = (N + 511) / 512`,
`N = nextPow2 length`. -/
def find_peaks_thread_count (length : ℤ) : ℤ :=
  ((nextPow2 length + threadsPerBlock - 1) / threadsPerBlock) * threadsPerBlock

/-- Addresses of `data` read by thread `i` of `find_peak_kernel`:
`data[i-1]`, `data[i]`, `data[i+1]`.  The kernel body has no bounds guard. -/
def find_peak_reads (i : ℤ) : List ℤ := [i - 1, i, i + 1]

/-- Address of `peaks` written by thread `i` of `find_peak_kernel`. -/
def find_peak_write (i : ℤ) : ℤ := i

/-- `find_peak_kernel`: every launched thread `i` unconditionally stores
`data[i-1] < data[i] && data[i] > data[i+1] ? 1 : 0` into `peaks[i]`
(the `length` parameter of the kernel is never used).  Each thread writes a
distinct cell and no written cell is read, so iterating threads is faithful
to any schedule. -/
def find_peak_kernel (peaks data : ℤ → ℤ) (launch : ℤ) : ℤ → ℤ := fun i =>
  if 0 ≤ i ∧ i < launch then
    (if data (i - 1) < data i ∧ data i > data (i + 1) then 1 else 0)
  else peaks i

/-- `make_list_kernel`: every launched thread `i` with `peaks[i]` truthy
stores `i` into `result[prefixes[i]]`.  With well-formed prefixes all writes
are distinct; with garbage prefixes (reachable, see the C5/C10 analysis) they
may collide, and this embedding fixes the ascending-thread-index schedule,
one legal device schedule. -/
def make_list_kernel (peaks pfx result0 : ℤ → ℤ) (launch : ℕ) : ℤ → ℤ :=
  (List.range launch).foldl
    (fun acc (i : ℕ) =>
      if peaks (i : ℤ) ≠ 0 then Function.update acc (pfx (i : ℤ)) ((i : ℤ)) else acc)
    result0

/-- `find_peaks(device_input, length, device_output)`: mark kernel, two
one-int memsets zeroing `peaks[0]` and `peaks[length-1]`, `cudaScan` into
`prefixes`, scatter kernel, and `prefixes[length-1]` copied back as the
count.  `peaks0`, `pfx0`, `ddata0` model the uninitialized contents of the
`cudaMalloc` allocations. -/
def find_peaks (device_input : ℤ → ℤ) (length : ℤ) (device_output : ℤ → ℤ)
    (peaks0 pfx0 ddata0 : ℤ → ℤ) : ℤ × (ℤ → ℤ) :=
  let launch := find_peaks_thread_count length
  let peaks1 := find_peak_kernel peaks0 device_input launch
  let peaks2 : ℤ → ℤ := fun i => if i = 0 then 0 else peaks1 i
  let peaks3 : ℤ → ℤ := fun i => if i = length - 1 then 0 else peaks2 i
  let pfx := cudaScan peaks3 length pfx0 ddata0
  let output := make_list_kernel peaks3 pfx device_output launch.toNat
  (pfx (length - 1), output)

/-- The peak-finder test input `[1,5,2,8,2,1]` (logical length 6), with the
uninitialized tail of the `nextPow2`-sized device allocation holding the
arbitrary values `data[6] = 9`, `data[7] = 0` (a `cudaMalloc` gives no
guarantee about these cells, nor about `data[-1]` and `data[8..]` which the
unguarded kernel also reads). -/
def peakData : ℤ → ℤ := fun i =>
  if i = 0 then 1 else if i = 1 then 5 else if i = 2 then 2 else if i = 3 then 8
  else if i = 4 then 2 else if i = 5 then 1 else if i = 6 then 9 else 0

/-- All-zero garbage for the uninitialized `prefixes` / scratch allocations. -/
def gZero : ℤ → ℤ := fun _ => 0

/-- Arbitrary initial contents of the output allocation. -/
def outInit : ℤ → ℤ := fun _ => -7

/-- The mark array actually produced for `peakData` at length 6:
`peaks[5] = 0` and `peaks[0] = 0` by the two memsets, everything else by the
unguarded kernel over all 512 launched threads. -/
def pkConcrete : ℤ → ℤ := fun i =>
  if i = 5 then 0 else if i = 0 then 0 else find_peak_kernel gZero peakData 512 i

/-- The prefix values relevant to the corrupted scatter. -/
def pfxC : ℤ → ℤ := fun i => if i = 3 then 1 else 0

/-- Concrete array for the scan witnesses; cells `≥ 6` model uninitialized
padding. -/
def arrC1 : ℤ → ℤ := fun i =>
  if i = 0 then 3 else if i = 1 then 1 else if i = 2 then 7 else if i = 3 then 0
  else if i = 4 then 4 else if i = 5 then 1 else 999

/-- Same logical contents as `arrC1`, different padding. -/
def arrC9 : ℤ → ℤ := fun i =>
  if i = 0 then 3 else if i = 1 then 1 else if i = 2 then 7 else if i = 3 then 0
  else if i = 4 then 4 else if i = 5 then 1 else -555

end Scan

namespace Render

def SCAN_BLOCK_DIM : ℕ := 1024

/-- Modelled from the spec: `exclusiveScan.cu_inl` (the shared-memory
work-efficient scan included via `#include`) is not part of the repository
sources.  §4.1/§6 specify `exclusiveScanGroupLocal` as producing, at worker
`tid`, the exclusive prefix sum of the `SCAN_BLOCK_DIM` input cells, i.e. the
sum of inputs `0 .. tid-1`. -/
def sharedMemExclusiveScan (input : ℕ → ℤ) : ℕ → ℤ := fun tid =>
  ∑ u ∈ Finset.range tid, input u

/-- One iteration of the chunked scan loop in `kernelScan2` (chunk `j`,
one tile row): live lanes load `hitCircles[row + j*S + tid]` into shared
memory (stale lanes keep the previous chunk's value), the group scan runs,
and each live lane stores its scan output plus the carry
`prefixes[row + j*S - 1] (+1 if hitCircles[row + j*S - 1] == 1)` for
`j ≥ 1`.  Within a chunk the lanes write pairwise distinct `prefixes` cells
and the carry cell `j*S - 1` is not written in the chunk, so iterating the
lanes simultaneously is faithful. -/
def scan2Chunk (N : ℕ) (hit : ℕ → ℤ) (j : ℕ) (sh : ℕ → ℤ) (pfx : ℕ → ℤ) :
    (ℕ → ℤ) × (ℕ → ℤ) :=
  let sh' : ℕ → ℤ := fun tid =>
    if tid < SCAN_BLOCK_DIM ∧ j * SCAN_BLOCK_DIM + tid < N then
      hit (j * SCAN_BLOCK_DIM + tid)
    else sh tid
  let out := sharedMemExclusiveScan sh'
  let add : ℤ :=
    if 1 ≤ j then
      (let a := pfx (j * SCAN_BLOCK_DIM - 1)
       let a' := if 0 ≤ a then a else 0
       if hit (j * SCAN_BLOCK_DIM - 1) = 1 then a' + 1 else a')
    else 0
  let pfx' : ℕ → ℤ := fun c =>
    if j * SCAN_BLOCK_DIM ≤ c ∧ c < j * SCAN_BLOCK_DIM + SCAN_BLOCK_DIM ∧ c < N then
      out (c - j * SCAN_BLOCK_DIM) + add
    else pfx c
  (sh', pfx')

/-- Chunks `0 .. m-1` of the `kernelScan2` do/while loop. -/
def scan2Iter (N : ℕ) (hit : ℕ → ℤ) : ℕ → (ℕ → ℤ) → (ℕ → ℤ) → ((ℕ → ℤ) × (ℕ → ℤ))
  | 0, sh, pfx => (sh, pfx)
  | j + 1, sh, pfx =>
    let p := scan2Iter N hit j sh pfx
    scan2Chunk N hit j p.1 p.2

/-- `kernelScan2` on one tile row: `maxIterations = ceil(N / SCAN_BLOCK_DIM)`
chunks; `sh0` and `pfx0` are the uninitialized shared scratch and `prefixes`
row contents. -/
def kernelScan2 (N : ℕ) (hit sh0 pfx0 : ℕ → ℤ) : ℕ → ℤ :=
  (scan2Iter N hit ((N + SCAN_BLOCK_DIM - 1) / SCAN_BLOCK_DIM) sh0 pfx0).2

/-- `kernelMakeLists` on one tile row.  Every circle index `c < N` is handled
by exactly one (thread, iteration) pair of the strided do/while loop: scatter
`c` to slot `prefixes[c]` when `hitCircles[c] == 1`, and the worker for
`c = N-1` additionally writes the `-1` sentinel (at `idx+1` if it hit and
`idx < N-1`, at `idx` if it did not hit).  With the scan-produced prefixes
all writes target pairwise distinct slots, so the ascending fold below is
faithful to any device schedule. -/
def kernelMakeLists (N : ℕ) (hit pfx : ℕ → ℤ) (list0 : ℤ → ℤ) : ℤ → ℤ :=
  (List.range N).foldl
    (fun acc (c : ℕ) =>
      let idx := pfx c
      let acc1 := if hit c = 1 then Function.update acc idx (c : ℤ) else acc
      if c = N - 1 then
        (if hit c = 1 ∧ idx < (N : ℤ) - 1 then Function.update acc1 (idx + 1) (-1)
         else if hit c = 0 then Function.update acc1 idx (-1)
         else acc1)
      else acc1)
    list0

/-- The per-tile hit rank: exclusive count of hits among circles `0..c-1`. -/
def rank (hit : ℕ → ℤ) (c : ℕ) : ℤ := ∑ u ∈ Finset.range c, hit u

/-- Scan stage followed by list-build stage on one tile row ("after the
list-build stage" state of the compacted list). -/
def tilePipelineList (N : ℕ) (hit sh0 pfx0 : ℕ → ℤ) (list0 : ℤ → ℤ) : ℤ → ℤ :=
  kernelMakeLists N hit (kernelScan2 N hit sh0 pfx0) list0

/-- Modelled from the spec: `circleBoxTest.cu_inl` (included via `#include`)
is not part of the repository sources.  §4.3 specifies the predicate as an
inclusive overlap test between circle `c`'s axis-aligned bounding box
`[cx-r, cx+r] × [cy-r, cy+r]` and the tile box `[l, r] × [b, t]`; parameter
order `(circleX, circleY, circleRadius, boxL, boxR, boxT, boxB)` as at the
call site in `kernelMarkBlocks`. -/
def circleInBox (cx cy rad l rt t b : ℚ) : ℤ :=
  if l ≤ cx + rad ∧ cx - rad ≤ rt ∧ b ≤ cy + rad ∧ cy - rad ≤ t then 1 else 0

/-- `kernelMarkBlocks` for one (tile `b`, circle) pair: the kernel computes
`gridXSize` by float division truncated to `int`, decomposes `b` into
`(blockX, blockY)`, builds the half-pixel-offset normalized box
`[(bs*blockX + 0.5)/W, (bs*(blockX+1) + 0.5)/W] × [(bs*blockY + 0.5)/H,
(bs*(blockY+1) + 0.5)/H]` and stores `circleInBox(...)` into
`hitCircles[b*N + c]`.  Each (tile, circle) pair is handled by exactly one
(thread, iteration) of the strided loop and writes its own cell. -/
def kernelMarkBlocks (W H bs : ℕ) (b : ℕ) (px py rad : ℚ) : ℤ :=
  let gridXSize : ℤ := ⌊((W : ℚ) + (bs : ℚ) - 1) / (bs : ℚ)⌋
  let blockX : ℤ := (b : ℤ) % gridXSize
  let blockY : ℤ := (b : ℤ) / gridXSize
  let boxL : ℚ := (((bs : ℤ) * blockX : ℤ) + 1/2) / (W : ℚ)
  let boxR : ℚ := (((bs : ℤ) * (blockX + 1) : ℤ) + 1/2) / (W : ℚ)
  let boxB : ℚ := (((bs : ℤ) * blockY : ℤ) + 1/2) / (H : ℚ)
  let boxT : ℚ := (((bs : ℤ) * (blockY + 1) : ℤ) + 1/2) / (H : ℚ)
  circleInBox px py rad boxL boxR boxT boxB

/-- The tile box exactly as claim C6 words it: the pixel region
`[bs*tx, bs*(tx+1)) × [bs*ty, bs*(ty+1))` clamped to the image bounds, in
normalized coordinates, tested for inclusive overlap against the circle's
axis-aligned bounding box. -/
def claimTileOverlap (W H bs : ℕ) (b : ℕ) (px py rad : ℚ) : Prop :=
  let gX : ℤ := ((W : ℤ) + (bs : ℤ) - 1) / (bs : ℤ)
  let tx : ℤ := (b : ℤ) % gX
  let ty : ℤ := (b : ℤ) / gX
  let l : ℚ := ((bs : ℤ) * tx : ℤ) / (W : ℚ)
  let rt : ℚ := (min ((bs : ℤ) * (tx + 1)) (W : ℤ) : ℤ) / (W : ℚ)
  let bb : ℚ := ((bs : ℤ) * ty : ℤ) / (H : ℚ)
  let tt : ℚ := (min ((bs : ℤ) * (ty + 1)) (H : ℤ) : ℤ) / (H : ℚ)
  l ≤ px + rad ∧ px - rad ≤ rt ∧ bb ≤ py + rad ∧ py - rad ≤ tt

/-- RGBA value (`float4`) with `ℚ` components. -/
structure C4q where
  x : ℚ
  y : ℚ
  z : ℚ
  w : ℚ
deriving DecidableEq

/-- RGB / position value (`float3`) with `ℚ` components. -/
structure C3q where
  x : ℚ
  y : ℚ
  z : ℚ
deriving DecidableEq

/-- The per-pixel loop body of `kernelRenderPixelsLocal` (flat-color scene
branch; the snowflake branch shades through `sqrt`/`exp` lookup tables and is
not exercised by the claims, whose scenes are flat-color with alpha `0.5`).
State: `ex` is the local accumulator `existingColor`, `nc` is `newColor`
(uninitialized until the first contributing circle); `fuel` counts the
remaining loop iterations (`numCircles - i`); the loop breaks at a negative
list entry.  Returns `(existingColor, newColor)`; the single pixel store
writes the `newColor` component. -/
def renderPixelGo (position : ℤ → C3q) (radius : ℤ → ℚ) (color : ℤ → C3q)
    (pcx pcy : ℚ) (list : ℕ → ℤ) : ℕ → ℕ → C4q → C4q → C4q × C4q
  | 0, _, ex, nc => (ex, nc)
  | fuel + 1, i, ex, nc =>
    let circleIndex := list i
    if circleIndex < 0 then (ex, nc)
    else
      let p := position circleIndex
      let diffX := p.x - pcx
      let diffY := p.y - pcy
      let pixelDist := diffX * diffX + diffY * diffY
      let rad := radius circleIndex
      let maxDist := rad * rad
      if pixelDist > maxDist then
        renderPixelGo position radius color pcx pcy list fuel (i + 1) ex nc
      else
        let rgb := color circleIndex
        let alpha : ℚ := 1/2
        let oneMinusAlpha := 1 - alpha
        let nc' : C4q := ⟨alpha * rgb.x + oneMinusAlpha * ex.x,
                          alpha * rgb.y + oneMinusAlpha * ex.y,
                          alpha * rgb.z + oneMinusAlpha * ex.z,
                          alpha + ex.w⟩
        renderPixelGo position radius color pcx pcy list fuel (i + 1) nc' nc'

/-- `kernelRenderPixelsLocal` for one pixel (flat-color scene): locate the
tile, read the pixel (`bg`, the pre-cleared image value), walk the tile's
compacted list, and store `newColor` — note: `newColor`, not
`existingColor` — back to the pixel.  `nc0` models the uninitialized
`newColor` local. -/
def kernelRenderPixelsLocal (W H bs numCircles : ℕ) (hitCirclesList : ℤ → ℤ)
    (position : ℤ → C3q) (radius : ℤ → ℚ) (color : ℤ → C3q)
    (pixelX pixelY : ℕ) (bg nc0 : C4q) : C4q :=
  let invWidth : ℚ := 1 / (W : ℚ)
  let invHeight : ℚ := 1 / (H : ℚ)
  let pcx : ℚ := invWidth * ((pixelX : ℚ) + 1/2)
  let pcy : ℚ := invHeight * ((pixelY : ℚ) + 1/2)
  let gridXSize : ℤ := ((W : ℤ) + (bs : ℤ) - 1) / (bs : ℤ)
  let blockId : ℤ := ((pixelY : ℤ) / (bs : ℤ)) * gridXSize + (pixelX : ℤ) / (bs : ℤ)
  (renderPixelGo position radius color pcx pcy
    (fun i => hitCirclesList (blockId * (numCircles : ℤ) + (i : ℤ)))
    numCircles 0 bg nc0).2

/-- The over-operator exactly as claim C7 words it (flat color, alpha 0.5):
`outRGB = alpha*circleRGB + (1-alpha)*existingRGB`,
`outAlpha = alpha + existingAlpha`, unclamped. -/
def overOp (color : ℤ → C3q) (c : ℤ) (ex : C4q) : C4q :=
  ⟨(1/2) * (color c).x + (1 - (1/2)) * ex.x,
   (1/2) * (color c).y + (1 - (1/2)) * ex.y,
   (1/2) * (color c).z + (1 - (1/2)) * ex.z,
   (1/2) + ex.w⟩

/-- Whether circle `c` contributes to the pixel: its squared
pixel-to-center distance does not exceed `radius²`. -/
def contributesAt (position : ℤ → C3q) (radius : ℤ → ℚ) (pcx pcy : ℚ) (c : ℤ) : Prop :=
  ((position c).x - pcx) * ((position c).x - pcx) +
    ((position c).y - pcy) * ((position c).y - pcy) ≤ radius c * radius c

instance contributesAt_dec (position : ℤ → C3q) (radius : ℤ → ℚ) (pcx pcy : ℚ) (c : ℤ) :
    Decidable (contributesAt position radius pcx pcy c) := by
  unfold contributesAt
  infer_instance

/-- The sequential composite as claim C7 words it: walk the listed circles in
order, skip any whose squared distance exceeds `radius²`, compose the rest
with the over-operator. -/
def renderSpecComposite (position : ℤ → C3q) (radius : ℤ → ℚ) (color : ℤ → C3q)
    (pcx pcy : ℚ) (cs : List ℤ) (bg : C4q) : C4q :=
  cs.foldl
    (fun ex c => if contributesAt position radius pcx pcy c then overOp color c ex else ex)
    bg

/-- Concrete tile row for the scan/list witnesses. -/
def hitW : ℕ → ℤ := fun c => if c = 0 then 1 else if c = 2 then 1 else 0

/-- Uninitialized-memory stand-in for witnesses. -/
def g37 : ℕ → ℤ := fun _ => 37

/-- Concrete flat-color scene: every circle centered at the image center. -/
def posW : ℤ → C3q := fun _ => ⟨1/2, 1/2, 1/2⟩

/-- Concrete scene: radius 0.1 for every circle. -/
def radW : ℤ → ℚ := fun _ => 1/10

/-- Concrete scene: circle 0 red, others green. -/
def colW : ℤ → C3q := fun c => if c = 0 then ⟨1, 0, 0⟩ else ⟨0, 1, 0⟩

/-- Concrete compacted list holding circles 0 and 1 then the sentinel. -/
def listW : ℕ → ℤ := fun k => if k = 0 then 0 else if k = 1 then 1 else -1

/-- Concrete per-tile hit list for a one-circle scene: circle 0 then sentinel. -/
def listC3 : ℤ → ℤ := fun j => if j = 0 then 0 else -1

end Render

namespace Scan

lemma intLor_natCast (a b : ℕ) : Int.lor (a : ℤ) (b : ℤ) = ((a ||| b : ℕ) : ℤ) := rfl

lemma nextPow2_eq_fillBits (n : ℤ) (hn : 1 ≤ n) :
    nextPow2 n = (fillBits (n - 1).toNat : ℤ) + 1 := by
  have h0 : (0 : ℤ) ≤ n - 1 := by omega
  have hrep : (n - 1 : ℤ) = ((n - 1).toNat : ℤ) := (Int.toNat_of_nonneg h0).symm
  unfold nextPow2 fillBits
  rw [hrep]
  simp only [Int.natCast_shiftRight, intLor_natCast, Int.toNat_natCast]

lemma orShift_testBit (x c i : ℕ) :
    (x ||| (x >>> c)).testBit i = (x.testBit i || x.testBit (i + c)) := by
  simp [Nat.testBit_lor, Nat.testBit_shiftRight, Nat.add_comm]

lemma spread_step {m x : ℕ} {c : ℕ}
    (hx : ∀ i, x.testBit i = true ↔ ∃ s, s < c ∧ m.testBit (i + s) = true) :
    ∀ i, (x ||| (x >>> c)).testBit i = true ↔
      ∃ s, s < 2 * c ∧ m.testBit (i + s) = true := by
  intro i
  rw [orShift_testBit, Bool.or_eq_true, hx i, hx (i + c)]
  constructor
  · rintro (⟨s, hs, hb⟩ | ⟨s, hs, hb⟩)
    · exact ⟨s, by omega, hb⟩
    · refine ⟨c + s, by omega, ?_⟩
      rwa [← Nat.add_assoc]
  · rintro ⟨s, hs, hb⟩
    by_cases h : s < c
    · exact Or.inl ⟨s, h, hb⟩
    · refine Or.inr ⟨s - c, by omega, ?_⟩
      have he : i + c + (s - c) = i + s := by omega
      rwa [he]

lemma fillBits_testBit (m : ℕ) :
    ∀ i, (fillBits m).testBit i = true ↔ ∃ s, s < 32 ∧ m.testBit (i + s) = true := by
  have h1 : ∀ i, m.testBit i = true ↔ ∃ s, s < 1 ∧ m.testBit (i + s) = true := by
    intro i
    constructor
    · intro h; exact ⟨0, by omega, by simpa using h⟩
    · rintro ⟨s, hs, hb⟩
      have : s = 0 := by omega
      subst this; simpa using hb
  have h2 := spread_step h1
  have h4 := spread_step h2
  have h8 := spread_step h4
  have h16 := spread_step h8
  have h32 := spread_step h16
  intro i
  have := h32 i
  norm_num at this
  unfold fillBits
  norm_num
  exact this

lemma lt_pow_of_high_bits_false {m k : ℕ}
    (h : ∀ j, k ≤ j → m.testBit j = false) : m < 2 ^ k := by
  have hz : m >>> k = 0 := by
    apply Nat.eq_of_testBit_eq
    intro b
    rw [Nat.testBit_shiftRight, Nat.zero_testBit]
    exact h (k + b) (by omega)
  rw [Nat.shiftRight_eq_div_pow] at hz
  have := (Nat.div_eq_zero_iff (by positivity)).mp hz
  exact this

lemma two_pow_le_of_testBit {n i : ℕ} (h : n.testBit i = true) : 2 ^ i ≤ n := by
  by_contra hlt
  push_neg at hlt
  rw [Nat.testBit_eq_false_of_lt hlt] at h
  exact Bool.false_ne_true h

lemma fillBits_eq (m : ℕ) (hm : m < 2 ^ 32) : fillBits m = 2 ^ m.size - 1 := by
  apply Nat.eq_of_testBit_eq
  intro i
  rw [Nat.testBit_two_pow_sub_one]
  by_cases hi : i < m.size
  · rw [decide_eq_true hi]
    rw [fillBits_testBit]
    have h2i : 2 ^ i ≤ m := Nat.lt_size.mp hi
    have hm0 : m ≠ 0 := by
      intro h
      rw [h] at h2i
      have := Nat.two_pow_pos i
      omega
    obtain ⟨j₀, hb, htop⟩ := Nat.exists_most_significant_bit hm0
    have hmlt : m < 2 ^ (j₀ + 1) := lt_pow_of_high_bits_false (fun j hj => htop j (by omega))
    have hij : i ≤ j₀ := by
      by_contra hcon
      have : 2 ^ i ≤ m := h2i
      have : (2 : ℕ) ^ i < 2 ^ (j₀ + 1) := lt_of_le_of_lt this hmlt
      have := (Nat.pow_lt_pow_iff_right (by norm_num)).mp this
      omega
    have hj32 : j₀ < 32 := by
      have h1 : 2 ^ j₀ ≤ m := two_pow_le_of_testBit hb
      have : (2 : ℕ) ^ j₀ < 2 ^ 32 := lt_of_le_of_lt h1 hm
      exact (Nat.pow_lt_pow_iff_right (by norm_num)).mp this
    refine ⟨j₀ - i, by omega, ?_⟩
    have he : i + (j₀ - i) = j₀ := by omega
    rwa [he]
  · rw [decide_eq_false hi]
    rw [← Bool.not_eq_true, fillBits_testBit]
    rintro ⟨s, _, hb⟩
    have h2 : 2 ^ (i + s) ≤ m := two_pow_le_of_testBit hb
    have : i + s < m.size := Nat.lt_size.mpr h2
    omega

/-- On `1 ≤ n ≤ 2^32`, `nextPow2 n` is exactly `2 ^ Nat.size (n-1)`. -/
lemma nextPow2_eq_pow (n : ℤ) (h1 : 1 ≤ n) (h2 : n ≤ 2 ^ 32) :
    nextPow2 n = (2 : ℤ) ^ (n - 1).toNat.size := by
  rw [nextPow2_eq_fillBits n h1]
  have hlt : (n - 1).toNat < 2 ^ 32 := by
    have : ((n - 1).toNat : ℤ) = n - 1 := Int.toNat_of_nonneg (by omega)
    omega
  rw [fillBits_eq _ hlt]
  have hpos : (1 : ℕ) ≤ 2 ^ (n - 1).toNat.size := Nat.one_le_two_pow
  push_cast [hpos]
  ring

lemma le_nextPow2 (n : ℤ) (h1 : 1 ≤ n) (h2 : n ≤ 2 ^ 32) : n ≤ nextPow2 n := by
  rw [nextPow2_eq_pow n h1 h2]
  have := Nat.lt_size_self (n - 1).toNat
  have hcast : ((n - 1).toNat : ℤ) = n - 1 := Int.toNat_of_nonneg (by omega)
  have : ((n - 1).toNat : ℤ) < ((2 : ℕ) ^ (n - 1).toNat.size : ℕ) := by
    exact_mod_cast this
  push_cast at this
  omega

lemma upsweepLoop_eq_passes (L : ℤ) (k : ℕ) (hL : L = 2 ^ k) :
    ∀ j m : ℕ, j + m = k → ∀ d, upsweepLoop L (2 ^ j) d = upsweepPasses L j m d := by
  intro j m
  induction m generalizing j with
  | zero =>
    intro hjm d
    have hj : j = k := by omega
    rw [upsweepLoop, upsweepPasses]
    have : ¬ ((2 : ℤ) ^ j < L) := by
      rw [hL, hj]
      exact lt_irrefl _
    simp [this]
  | succ m ih =>
    intro hjm d
    rw [upsweepLoop, upsweepPasses]
    have hlt : (2 : ℤ) ^ j < L := by
      rw [hL]
      exact pow_lt_pow_right₀ (by norm_num) (by omega)
    have hpos : (0 : ℤ) < 2 ^ j := by positivity
    rw [if_pos ⟨hpos, hlt⟩]
    have h2 : (2 : ℤ) * 2 ^ j = 2 ^ (j + 1) := by ring
    rw [h2]
    exact ih (j + 1) (by omega) _

lemma downsweepLoop_eq_passes (L : ℤ) :
    ∀ m : ℕ, ∀ d, downsweepLoop L (2 ^ m) d = downsweepPasses L (m + 1) d := by
  intro m
  induction m with
  | zero =>
    intro d
    rw [downsweepLoop, downsweepPasses, downsweepPasses]
    norm_num
    rw [downsweepLoop]
    norm_num
  | succ m ih =>
    intro d
    rw [downsweepLoop, downsweepPasses]
    have hge : (1 : ℤ) ≤ 2 ^ (m + 1) := one_le_pow₀ (by norm_num)
    rw [if_pos hge]
    have hdiv : (2 : ℤ) ^ (m + 1) / 2 = 2 ^ m := by
      rw [pow_succ]
      omega
    rw [hdiv]
    exact ih _

lemma S_split (d : ℤ → ℤ) {a b c : ℤ} (hab : a ≤ b) (hbc : b ≤ c) :
    S d a c = S d a b + S d b c := by
  unfold S
  rw [← Finset.sum_union (Finset.Ico_disjoint_Ico_consecutive a b c)]
  rw [Finset.Ico_union_Ico_eq_Ico hab hbc]

lemma S_singleton (d : ℤ → ℤ) (a : ℤ) : S d a (a + 1) = d a := by
  unfold S
  have h : Finset.Ico a (a + 1) = {a} := by
    ext x
    simp only [Finset.mem_Ico, Finset.mem_singleton]
    omega
  rw [h, Finset.sum_singleton]

lemma S_empty (d : ℤ → ℤ) (a : ℤ) : S d a a = 0 := by
  simp [S]

lemma int_pow_dvd_iff_nat {m : ℕ} {a : ℤ} (ha : 0 ≤ a) :
    (2 : ℤ) ^ m ∣ a ↔ 2 ^ m ∣ a.toNat := by
  rw [← Int.toNat_of_nonneg ha]
  simp only [Int.toNat_natCast]
  exact_mod_cast Iff.rfl

lemma dvd_iff_le_nu {m : ℕ} {j : ℤ} (hj : 0 ≤ j) :
    (2 : ℤ) ^ m ∣ (j + 1) ↔ m ≤ nu j := by
  rw [int_pow_dvd_iff_nat (by omega)]
  rw [padicValNat_dvd_iff]
  have : (j + 1).toNat ≠ 0 := by omega
  simp [this, nu]

lemma emod_pow_eq_zero_iff {m : ℕ} {j : ℤ} (hj : 0 ≤ j) :
    (j + 1) % (2 : ℤ) ^ m = 0 ↔ m ≤ nu j := by
  constructor
  · intro h
    exact (dvd_iff_le_nu hj).mp (Int.dvd_of_emod_eq_zero h)
  · intro h
    exact Int.emod_eq_zero_of_dvd ((dvd_iff_le_nu hj).mpr h)

lemma nu_self_dvd {j : ℤ} (hj : 0 ≤ j) : (2 : ℤ) ^ (nu j) ∣ (j + 1) :=
  (dvd_iff_le_nu hj).mpr le_rfl

lemma nu_sub_pow {m : ℕ} {j : ℤ} (hj : 0 ≤ j) (hdvd : (2 : ℤ) ^ (m + 1) ∣ (j + 1)) :
    nu (j - 2 ^ m) = m := by
  have h2m : (2 : ℤ) ^ (m + 1) = 2 ^ m * 2 := by ring
  have hge : (2 : ℤ) ^ (m + 1) ≤ j + 1 := Int.le_of_dvd (by omega) hdvd
  have hge' : (0 : ℤ) ≤ j - 2 ^ m := by
    have h1 : (2 : ℤ) ^ m ≤ 2 ^ (m + 1) := by
      have := pow_le_pow_right₀ (a := (2 : ℤ)) (by norm_num) (Nat.le_succ m)
      exact this
    omega
  have hrepr : j - 2 ^ m + 1 = (j + 1) - 2 ^ m := by ring
  have hdvd_m : (2 : ℤ) ^ m ∣ (j - 2 ^ m + 1) := by
    rw [hrepr]
    exact dvd_sub (dvd_trans ⟨2, h2m⟩ hdvd) dvd_rfl
  have hnotdvd : ¬ (2 : ℤ) ^ (m + 1) ∣ (j - 2 ^ m + 1) := by
    rw [hrepr]
    intro hcon
    have : (2 : ℤ) ^ (m + 1) ∣ (2 : ℤ) ^ m := by
      have := dvd_sub hdvd hcon
      simpa using this
    have hle := Int.le_of_dvd (by positivity) this
    have : (2 : ℤ) ^ m < 2 ^ (m + 1) := by
      have := pow_lt_pow_right₀ (a := (2 : ℤ)) (by norm_num) (Nat.lt_succ_self m)
      exact this
    omega
  have h1 : m ≤ nu (j - 2 ^ m) := (dvd_iff_le_nu hge').mp hdvd_m
  have h2 : ¬ (m + 1 ≤ nu (j - 2 ^ m)) := fun hcon =>
    hnotdvd ((dvd_iff_le_nu hge').mpr hcon)
  omega

lemma Iup_zero (d₀ : ℤ → ℤ) (L : ℤ) : Iup d₀ L 0 d₀ := by
  intro j _ _
  simp only [Nat.zero_min, pow_zero]
  rw [show j + 1 - 1 = j by ring, S_singleton]

lemma upsweep_cond_iff {L twod j : ℤ} (ht : 0 < twod) (hdvd : (2 * twod) ∣ L) :
    (0 ≤ j + 1 - 2 * twod ∧ j + 1 - 2 * twod < L ∧ (j + 1 - 2 * twod) % (2 * twod) = 0)
      ↔ (0 ≤ j ∧ j < L ∧ (j + 1) % (2 * twod) = 0) := by
  have hmod : (j + 1 - 2 * twod) % (2 * twod) = (j + 1) % (2 * twod) := by
    conv_rhs => rw [show j + 1 = (j + 1 - 2 * twod) + (2 * twod) * 1 by ring]
    rw [Int.add_mul_emod_self_left]
  rw [hmod]
  constructor
  · rintro ⟨h1, h2, h3⟩
    refine ⟨by omega, ?_, h3⟩
    have hd1 : (2 * twod) ∣ (j + 1) := Int.dvd_of_emod_eq_zero h3
    have hd1' : (2 * twod) ∣ (j + 1 - 2 * twod) := dvd_sub hd1 dvd_rfl
    have hd2 : (2 * twod) ∣ (L - (j + 1 - 2 * twod)) := dvd_sub hdvd hd1'
    have := Int.le_of_dvd (by omega) hd2
    omega
  · rintro ⟨h1, h2, h3⟩
    have hd1 : (2 * twod) ∣ (j + 1) := Int.dvd_of_emod_eq_zero h3
    have : 2 * twod ≤ j + 1 := Int.le_of_dvd (by omega) hd1
    exact ⟨by omega, by omega, h3⟩

lemma Iup_step (d₀ : ℤ → ℤ) (L : ℤ) (k m : ℕ) (hL : L = 2 ^ k) (hm : m < k)
    (u : ℤ → ℤ) (hu : Iup d₀ L m u) :
    Iup d₀ L (m + 1) (upsweepPass L (2 ^ m) u) := by
  intro j hj hjL
  have hdvdL : (2 * (2 : ℤ) ^ m) ∣ L := by
    rw [hL, show (2 : ℤ) * 2 ^ m = 2 ^ (m + 1) by ring]
    exact pow_dvd_pow 2 (by omega)
  unfold upsweepPass
  rw [if_congr (upsweep_cond_iff (by positivity) hdvdL) rfl rfl]
  by_cases hcond : (j + 1) % (2 * (2 : ℤ) ^ m) = 0
  · rw [if_pos ⟨hj, hjL, hcond⟩]
    have hdvd : (2 : ℤ) ^ (m + 1) ∣ (j + 1) := by
      rw [show (2 : ℤ) ^ (m + 1) = 2 * 2 ^ m by ring]
      exact Int.dvd_of_emod_eq_zero hcond
    have hnu : m + 1 ≤ nu j := (dvd_iff_le_nu hj).mp hdvd
    have hge : (2 : ℤ) ^ (m + 1) ≤ j + 1 := Int.le_of_dvd (by omega) hdvd
    have hpow : (2 : ℤ) ^ m < 2 ^ (m + 1) :=
      pow_lt_pow_right₀ (by norm_num) (Nat.lt_succ_self m)
    have hj' : (0 : ℤ) ≤ j - 2 ^ m := by omega
    -- value at j under Iup m
    have hm1 : min m (nu j) = m := by omega
    have hvj : u j = S d₀ (j + 1 - 2 ^ m) (j + 1) := by
      rw [hu j hj hjL, hm1]
    -- value at j - 2^m under Iup m
    have hnusub : nu (j - 2 ^ m) = m := nu_sub_pow hj hdvd
    have hm2 : min m (nu (j - 2 ^ m)) = m := by omega
    have hvj' : u (j - 2 ^ m) = S d₀ (j + 1 - 2 ^ (m + 1)) (j + 1 - 2 ^ m) := by
      rw [hu (j - 2 ^ m) hj' (by omega), hm2]
      congr 1
      · rw [show (2 : ℤ) ^ (m + 1) = 2 ^ m + 2 ^ m by ring]
        ring
      · ring
    rw [hvj, hvj']
    have hmin : min (m + 1) (nu j) = m + 1 := by omega
    rw [hmin]
    rw [S_split d₀ (a := j + 1 - 2 ^ (m + 1)) (b := j + 1 - 2 ^ m) (c := j + 1) (by omega) (by omega)]
    ring
  · rw [if_neg (by tauto)]
    have hnu : nu j ≤ m := by
      by_contra hcon
      have : (2 : ℤ) ^ (m + 1) ∣ (j + 1) := (dvd_iff_le_nu hj).mpr (by omega)
      rw [show (2 : ℤ) ^ (m + 1) = 2 * 2 ^ m by ring] at this
      exact hcond (Int.emod_eq_zero_of_dvd this)
    have : min (m + 1) (nu j) = min m (nu j) := by omega
    rw [hu j hj hjL, this]

lemma downsweep_cond2_iff {L twod j : ℤ} (ht : 0 < twod) (hdvd : (2 * twod) ∣ L) :
    (0 ≤ j + 1 - twod ∧ j + 1 - twod < L ∧ (j + 1 - twod) % (2 * twod) = 0)
      ↔ (0 ≤ j ∧ j + twod < L ∧ (j + 1 + twod) % (2 * twod) = 0) := by
  have hmod : (j + 1 - twod) % (2 * twod) = (j + 1 + twod) % (2 * twod) := by
    conv_rhs => rw [show j + 1 + twod = (j + 1 - twod) + (2 * twod) * 1 by ring]
    rw [Int.add_mul_emod_self_left]
  rw [hmod]
  constructor
  · rintro ⟨h1, h2, h3⟩
    have hd1 : (2 * twod) ∣ (j + 1 + twod) := Int.dvd_of_emod_eq_zero h3
    have hd1' : (2 * twod) ∣ (j + 1 - twod) := by
      have := dvd_sub hd1 (dvd_refl (2 * twod))
      convert this using 1
      ring
    have hd2 : (2 * twod) ∣ (L - (j + 1 - twod)) := dvd_sub hdvd hd1'
    have := Int.le_of_dvd (by omega) hd2
    omega
  · rintro ⟨h1, h2, h3⟩
    have hd1 : (2 * twod) ∣ (j + 1 + twod) := Int.dvd_of_emod_eq_zero h3
    have := Int.le_of_dvd (by omega) hd1
    exact ⟨by omega, by omega, h3⟩

lemma Idown_init (d₀ : ℤ → ℤ) (k : ℕ) (u : ℤ → ℤ) (hu : Iup d₀ (2 ^ k) k u) :
    Idown d₀ (2 ^ k) k (fun j => if j = 2 ^ k - 1 then 0 else u j) := by
  intro j hj hjL
  constructor
  · intro hmod
    have hdvd := Int.dvd_of_emod_eq_zero hmod
    have hge : (2 : ℤ) ^ k ≤ j + 1 := Int.le_of_dvd (by omega) hdvd
    have hj' : j = 2 ^ k - 1 := by omega
    subst hj'
    rw [show (2 : ℤ) ^ k - 1 + 1 - 2 ^ k = 0 by ring, S_empty]
    simp
  · intro hmod
    have hne : j ≠ 2 ^ k - 1 := by
      intro hcon
      apply hmod
      rw [hcon, show (2 : ℤ) ^ k - 1 + 1 = 2 ^ k by ring]
      simp
    simp only [if_neg hne]
    have hnu : nu j < k := by
      by_contra hcon
      push_neg at hcon
      exact hmod ((emod_pow_eq_zero_iff hj).mpr hcon)
    rw [hu j hj hjL]
    rw [Nat.min_eq_right hnu.le]

lemma Idown_step (d₀ : ℤ → ℤ) (k m : ℕ) (hm : m < k) (e : ℤ → ℤ)
    (he : Idown d₀ (2 ^ k) (m + 1) e) :
    Idown d₀ (2 ^ k) m (downsweepPass (2 ^ k) (2 ^ m) e) := by
  have hpow : (2 : ℤ) ^ (m + 1) = 2 * 2 ^ m := by ring
  have hpm : (0 : ℤ) < 2 ^ m := by positivity
  have hdvdL : (2 * (2 : ℤ) ^ m) ∣ (2 : ℤ) ^ k := by
    rw [← hpow]
    exact pow_dvd_pow 2 (by omega)
  intro j hj hjL
  set L := (2 : ℤ) ^ k with hLdef
  have hc1 := @upsweep_cond_iff L (2 ^ m) j hpm hdvdL
  have hc2 := @downsweep_cond2_iff L (2 ^ m) j hpm hdvdL
  unfold downsweepPass
  by_cases hb1 : 0 ≤ j ∧ j < L ∧ (j + 1) % (2 * 2 ^ m) = 0
  · rw [if_pos (hc1.mpr hb1)]
    have hdvd : (2 : ℤ) ^ (m + 1) ∣ (j + 1) := by
      rw [hpow]; exact Int.dvd_of_emod_eq_zero hb1.2.2
    have hge : (2 : ℤ) ^ (m + 1) ≤ j + 1 := Int.le_of_dvd (by omega) hdvd
    have hplt : (2 : ℤ) ^ m < 2 ^ (m + 1) := by rw [hpow]; omega
    -- e j holds the prefix sum up to its 2^(m+1)-block start
    have hej : e j = S d₀ 0 (j + 1 - 2 ^ (m + 1)) :=
      (he j hj hjL).1 (by rw [← hpow] at hb1; exact hb1.2.2)
    -- e (j - 2^m) still holds its up-sweep value, a block of size 2^m
    have hj' : (0 : ℤ) ≤ j - 2 ^ m := by omega
    have hmodsub : (j - 2 ^ m + 1) % (2 : ℤ) ^ (m + 1) ≠ 0 := by
      intro hcon
      have h1 : (2 : ℤ) ^ (m + 1) ∣ (j - 2 ^ m + 1) := Int.dvd_of_emod_eq_zero hcon
      have h2 : (2 : ℤ) ^ (m + 1) ∣ (2 : ℤ) ^ m := by
        have := dvd_sub hdvd h1
        convert this using 1
        ring
      have := Int.le_of_dvd hpm h2
      omega
    have hnusub : nu (j - 2 ^ m) = m := nu_sub_pow hj hdvd
    have hej' : e (j - 2 ^ m) = S d₀ (j + 1 - 2 ^ (m + 1)) (j + 1 - 2 ^ m) := by
      rw [(he (j - 2 ^ m) hj' (by omega)).2 hmodsub, hnusub]
      congr 1
      · rw [hpow]; ring
      · ring
    constructor
    · intro _
      rw [hej, hej']
      rw [← S_split d₀ (by omega) (by omega)]
    · intro hcon
      exfalso
      apply hcon
      apply Int.emod_eq_zero_of_dvd
      exact dvd_trans (pow_dvd_pow 2 (Nat.le_succ m)) hdvd
  · by_cases hb2 : 0 ≤ j ∧ j + 2 ^ m < L ∧ (j + 1 + 2 ^ m) % (2 * 2 ^ m) = 0
    · rw [if_neg (fun hcon => hb1 (hc1.mp hcon)), if_pos (hc2.mpr hb2)]
      have hdvd : (2 : ℤ) ^ (m + 1) ∣ (j + 1 + 2 ^ m) := by
        rw [hpow]; exact Int.dvd_of_emod_eq_zero hb2.2.2
      have hejp : e (j + 2 ^ m) = S d₀ 0 (j + 1 - 2 ^ m) := by
        have := (he (j + 2 ^ m) (by omega) (by omega)).1
          (by rw [show j + 2 ^ m + 1 = j + 1 + 2 ^ m by ring]
              exact Int.emod_eq_zero_of_dvd (hpow ▸ hdvd))
        rw [this]
        congr 1
        rw [hpow]; ring
      have hdvdm : (2 : ℤ) ^ m ∣ (j + 1) := by
        have h1 : (2 : ℤ) ^ m ∣ (j + 1 + 2 ^ m) :=
          dvd_trans (pow_dvd_pow 2 (Nat.le_succ m)) hdvd
        have := dvd_sub h1 (dvd_refl ((2 : ℤ) ^ m))
        convert this using 1
        ring
      constructor
      · intro _
        exact hejp
      · intro hcon
        exact absurd (Int.emod_eq_zero_of_dvd hdvdm) hcon
    · rw [if_neg (fun hcon => hb1 (hc1.mp hcon)), if_neg (fun hcon => hb2 (hc2.mp hcon))]
      constructor
      · intro hmod
        exfalso
        have hdvdm : (2 : ℤ) ^ m ∣ (j + 1) := Int.dvd_of_emod_eq_zero hmod
        -- j+1 is ≡ 0 or ≡ 2^m modulo 2^(m+1); either way a skipped branch fires
        by_cases hd1 : (2 : ℤ) ^ (m + 1) ∣ (j + 1)
        · exact hb1 ⟨hj, hjL, by rw [← hpow]; exact Int.emod_eq_zero_of_dvd hd1⟩
        · have hd2 : (2 : ℤ) ^ (m + 1) ∣ (j + 1 + 2 ^ m) := by
            obtain ⟨a, ha⟩ := hdvdm
            rcases Int.even_or_odd a with ⟨b, hb⟩ | ⟨b, hb⟩
            · exfalso
              apply hd1
              refine ⟨b, ?_⟩
              rw [ha, hb, hpow]; ring
            · refine ⟨b + 1, ?_⟩
              rw [ha, hb, hpow]; ring
          have hle : j + 1 + 2 ^ m ≤ L := by
            by_contra hcon
            push_neg at hcon
            have hdiff : (2 : ℤ) ^ (m + 1) ∣ (j + 1 + 2 ^ m - L) :=
              dvd_sub hd2 (hpow ▸ hdvdL)
            have hstep := Int.le_of_dvd (by omega) hdiff
            have : (2 : ℤ) ^ m < 2 ^ (m + 1) := by rw [hpow]; omega
            omega
          exact hb2 ⟨hj, by omega, by rw [← hpow]; exact Int.emod_eq_zero_of_dvd hd2⟩
      · intro hmod
        have hmod1 : (j + 1) % (2 : ℤ) ^ (m + 1) ≠ 0 := by
          intro hcon
          apply hmod
          exact Int.emod_eq_zero_of_dvd
            (dvd_trans (pow_dvd_pow 2 (Nat.le_succ m)) (Int.dvd_of_emod_eq_zero hcon))
        exact (he j hj hjL).2 hmod1

lemma upsweepPasses_succ (L : ℤ) :
    ∀ m j d, upsweepPasses L j (m + 1) d =
      upsweepPass L (2 ^ (j + m)) (upsweepPasses L j m d) := by
  intro m
  induction m with
  | zero => intro j d; rfl
  | succ m ih =>
    intro j d
    show upsweepPasses L (j + 1) (m + 1) (upsweepPass L (2 ^ j) d) = _
    rw [ih (j + 1) (upsweepPass L (2 ^ j) d)]
    have : j + 1 + m = j + (m + 1) := by omega
    rw [this]
    rfl

lemma upsweep_inv (d₀ : ℤ → ℤ) (k : ℕ) :
    ∀ m, m ≤ k → Iup d₀ (2 ^ k) m (upsweepPasses (2 ^ k) 0 m d₀) := by
  intro m
  induction m with
  | zero => intro _; exact Iup_zero d₀ (2 ^ k)
  | succ m ih =>
    intro hm
    rw [upsweepPasses_succ]
    simp only [Nat.zero_add]
    exact Iup_step d₀ (2 ^ k) k m rfl (by omega) _ (ih (by omega))

lemma downsweep_inv (d₀ : ℤ → ℤ) (k : ℕ) :
    ∀ m, m ≤ k → ∀ e, Idown d₀ (2 ^ k) m e →
      Idown d₀ (2 ^ k) 0 (downsweepPasses (2 ^ k) m e) := by
  intro m
  induction m with
  | zero => intro _ e he; exact he
  | succ m ih =>
    intro hm e he
    show Idown d₀ (2 ^ k) 0 (downsweepPasses (2 ^ k) m (downsweepPass (2 ^ k) (2 ^ m) e))
    exact ih (by omega) _ (Idown_step d₀ k m (by omega) e he)

/-- Main correctness of the device-wide scan: for every logical length
`1 ≤ n ≤ 2^30` (so that `nextPow2 n` is still a representable 32-bit `int`)
and every initial memory state `d`, after `exclusive_scan n d` cell `i`
(`0 ≤ i < n`) holds the sum of the original cells `0 .. i-1`. -/
lemma exclusive_scan_spec (n : ℤ) (d : ℤ → ℤ) (h1 : 1 ≤ n) (h2 : n ≤ 2 ^ 30) :
    ∀ i, 0 ≤ i → i < n → exclusive_scan n d i = S d 0 i := by
  intro i hi hin
  have h2' : n ≤ 2 ^ 32 := le_trans h2 (by norm_num)
  obtain ⟨k, hL⟩ : ∃ k : ℕ, nextPow2 n = 2 ^ k :=
    ⟨(n - 1).toNat.size, nextPow2_eq_pow n h1 h2'⟩
  have hnL : n ≤ (2 : ℤ) ^ k := hL ▸ le_nextPow2 n h1 h2'
  have hup : upsweepLoop (nextPow2 n) 1 d = upsweepPasses (2 ^ k) 0 k d := by
    rw [hL, show (1 : ℤ) = 2 ^ (0 : ℕ) by norm_num]
    exact upsweepLoop_eq_passes (2 ^ k) k rfl 0 k (by omega) d
  simp only [exclusive_scan]
  rw [hup, hL]
  set u := upsweepPasses ((2 : ℤ) ^ k) 0 k d with hudef
  set e0 : ℤ → ℤ := fun j => if j = 2 ^ k - 1 then 0 else u j with he0def
  have hinit : Idown d (2 ^ k) k e0 := Idown_init d k u (upsweep_inv d k k le_rfl)
  have hfin : Idown d (2 ^ k) 0 (downsweepLoop ((2 : ℤ) ^ k) ((2 : ℤ) ^ k / 2) e0) := by
    rcases Nat.eq_zero_or_pos k with hk0 | hkpos
    · subst hk0
      rw [downsweepLoop]
      norm_num
      exact hinit
    · obtain ⟨k', rfl⟩ : ∃ k', k = k' + 1 := ⟨k - 1, by omega⟩
      have hdiv : ((2 : ℤ) ^ (k' + 1)) / 2 = 2 ^ k' := by
        rw [pow_succ]; omega
      rw [hdiv, downsweepLoop_eq_passes]
      exact downsweep_inv d (k' + 1) (k' + 1) le_rfl e0 hinit
  have hIL : i < (2 : ℤ) ^ k := by omega
  have := (hfin i hi hIL).1 (by simp [Int.emod_one])
  rw [this]
  congr 1
  norm_num

/-- Pin down `nextPow2` at a concrete power of two. -/
lemma nextPow2_eq_of (n : ℤ) (k : ℕ) (hk : k ≤ 32) (h1 : 1 ≤ n) (h2 : n ≤ 2 ^ k)
    (h3 : 2 ^ k < 2 * n) : nextPow2 n = 2 ^ k := by
  have hk32 : n ≤ 2 ^ 32 := by
    refine le_trans h2 ?_
    exact pow_le_pow_right₀ (by norm_num) hk
  rw [nextPow2_eq_pow n h1 hk32]
  congr 1
  set m := (n - 1).toNat with hm
  have hcast : (m : ℤ) = n - 1 := Int.toNat_of_nonneg (by omega)
  have hcast2 : ((2 ^ k : ℕ) : ℤ) = (2 : ℤ) ^ k := by push_cast; ring
  have hup : m < 2 ^ k := by omega
  have hsize_le : m.size ≤ k := Nat.size_le.mpr hup
  have hsize_ge : k ≤ m.size := by
    rcases Nat.eq_zero_or_pos k with rfl | hkpos
    · omega
    · have hp : (2 : ℤ) ^ k = 2 * 2 ^ (k - 1) := by
        conv_lhs => rw [show k = (k - 1) + 1 by omega]
        rw [pow_succ']
      have hcast3 : ((2 ^ (k - 1) : ℕ) : ℤ) = (2 : ℤ) ^ (k - 1) := by push_cast; ring
      have hlow : 2 ^ (k - 1) ≤ m := by omega
      have := Nat.lt_size.mpr hlow
      omega
  omega

lemma nextPow2_6 : nextPow2 6 = 8 :=
  nextPow2_eq_of 6 3 (by norm_num) (by norm_num) (by norm_num) (by norm_num)

lemma find_peaks_thread_count_6 : find_peaks_thread_count 6 = 512 := by
  unfold find_peaks_thread_count threadsPerBlock
  rw [nextPow2_6]
  decide

lemma make_list_congr (peaks pfx pfx2 out0 : ℤ → ℤ) (launch : ℕ)
    (h : ∀ i : ℕ, i < launch → peaks (i : ℤ) ≠ 0 → pfx (i : ℤ) = pfx2 (i : ℤ)) :
    make_list_kernel peaks pfx out0 launch = make_list_kernel peaks pfx2 out0 launch := by
  unfold make_list_kernel
  have hgen : ∀ (l : List ℕ), (∀ i ∈ l, peaks (i : ℤ) ≠ 0 → pfx (i : ℤ) = pfx2 (i : ℤ)) →
      ∀ acc : ℤ → ℤ,
        l.foldl (fun acc (i : ℕ) => if peaks (i : ℤ) ≠ 0 then
            Function.update acc (pfx (i : ℤ)) ((i : ℤ)) else acc) acc =
        l.foldl (fun acc (i : ℕ) => if peaks (i : ℤ) ≠ 0 then
            Function.update acc (pfx2 (i : ℤ)) ((i : ℤ)) else acc) acc := by
    intro l
    induction l with
    | nil => intro _ acc; rfl
    | cons a t ih =>
      intro hl acc
      rw [List.foldl_cons, List.foldl_cons]
      by_cases ha : peaks (a : ℤ) ≠ 0
      · rw [if_pos ha, if_pos ha, hl a (List.mem_cons_self a t) ha]
        exact ih (fun i hi => hl i (List.mem_cons_of_mem a hi)) _
      · rw [if_neg ha, if_neg ha]
        exact ih (fun i hi => hl i (List.mem_cons_of_mem a hi)) _
  apply hgen
  intro i hi
  exact h i (List.mem_range.mp hi)

lemma find_peaks_unfold_6 :
    find_peaks peakData 6 outInit gZero gZero gZero =
      (cudaScan pkConcrete 6 gZero gZero 5,
       make_list_kernel pkConcrete (cudaScan pkConcrete 6 gZero gZero) outInit 512) := by
  unfold find_peaks pkConcrete
  rw [find_peaks_thread_count_6]
  norm_num
  rfl

lemma cudaScan_pk_in (x : ℤ) (h1 : 0 ≤ x) (h2 : x < 6) :
    cudaScan pkConcrete 6 gZero gZero x =
      S (fun i => if 0 ≤ i ∧ i < 6 then pkConcrete i else gZero i) 0 x := by
  unfold cudaScan
  simp only [if_pos (And.intro h1 h2)]
  exact exclusive_scan_spec 6 _ (by norm_num) (by norm_num) x h1 h2

lemma cudaScan_pk_1 : cudaScan pkConcrete 6 gZero gZero 1 = 0 := by
  rw [cudaScan_pk_in 1 (by norm_num) (by norm_num)]
  decide

lemma cudaScan_pk_3 : cudaScan pkConcrete 6 gZero gZero 3 = 1 := by
  rw [cudaScan_pk_in 3 (by norm_num) (by norm_num)]
  decide

lemma cudaScan_pk_5 : cudaScan pkConcrete 6 gZero gZero 5 = 2 := by
  rw [cudaScan_pk_in 5 (by norm_num) (by norm_num)]
  decide

lemma cudaScan_pk_6 : cudaScan pkConcrete 6 gZero gZero 6 = 0 := by
  unfold cudaScan gZero
  norm_num

lemma pk_writers : ∀ i : ℕ, i < 512 → pkConcrete (i : ℤ) ≠ 0 → (i = 1 ∨ i = 3 ∨ i = 6) := by
  decide

lemma pfx_agrees : ∀ i : ℕ, i < 512 → pkConcrete (i : ℤ) ≠ 0 →
    cudaScan pkConcrete 6 gZero gZero (i : ℤ) = pfxC (i : ℤ) := by
  intro i hi hne
  rcases pk_writers i hi hne with rfl | rfl | rfl
  · show cudaScan pkConcrete 6 gZero gZero ((1 : ℕ) : ℤ) = pfxC ((1 : ℕ) : ℤ)
    norm_num [pfxC, cudaScan_pk_1]
  · show cudaScan pkConcrete 6 gZero gZero ((3 : ℕ) : ℤ) = pfxC ((3 : ℕ) : ℤ)
    norm_num [pfxC, cudaScan_pk_3]
  · show cudaScan pkConcrete 6 gZero gZero ((6 : ℕ) : ℤ) = pfxC ((6 : ℕ) : ℤ)
    norm_num [pfxC, cudaScan_pk_6]

/-- C5 : `find_peaks` is claimed to return, for every input of length
`len ≥ 3`, exactly the sorted peak indices in the first `count` output slots.
For the input `[1,5,2,8,2,1]` (peaks `{1, 3}`, count 2) and a reachable
uninitialized-memory state (`data[6] = 9`, `data[7] = 0`, uninitialized
`prefixes[6] = 0`), the unguarded thread 6 of the scatter kernel also fires
and overwrites slot 0 with the out-of-range index 6: the returned count is 2
but the output begins `6, 3` instead of `1, 3`. -/
theorem find_peaks_padding_corruption :
    (find_peaks peakData 6 outInit gZero gZero gZero).1 = 2 ∧
    (find_peaks peakData 6 outInit gZero gZero gZero).2 0 = 6 ∧
    (find_peaks peakData 6 outInit gZero gZero gZero).2 1 = 3 := by
  rw [find_peaks_unfold_6]
  have hml : make_list_kernel pkConcrete (cudaScan pkConcrete 6 gZero gZero) outInit 512 =
      make_list_kernel pkConcrete pfxC outInit 512 :=
    make_list_congr _ _ _ _ _ pfx_agrees
  refine ⟨cudaScan_pk_5, ?_, ?_⟩
  · show make_list_kernel pkConcrete (cudaScan pkConcrete 6 gZero gZero) outInit 512 0 = 6
    rw [hml]
    decide
  · show make_list_kernel pkConcrete (cudaScan pkConcrete 6 gZero gZero) outInit 512 1 = 3
    rw [hml]
    decide

/-- C10 : the claim states every `data` read of the mark kernel lies in
`[0, length)` and every `peaks` write lies in `[0, nextPow2 length)`.  At
`length = 6` the kernel launches 512 threads; thread 0 reads `data[-1]`
(outside `[0, 6)`) and thread 511 writes `peaks[511]` (outside
`[0, nextPow2 6) = [0, 8)`). -/
theorem find_peak_kernel_oob :
    find_peaks_thread_count 6 = 512 ∧
    ((-1 : ℤ) ∈ find_peak_reads 0) ∧ ¬ ((0 : ℤ) ≤ -1 ∧ (-1 : ℤ) < 6) ∧
    find_peak_write 511 = 511 ∧ nextPow2 6 = 8 ∧ ¬ ((511 : ℤ) < 8) := by
  refine ⟨find_peaks_thread_count_6, ?_, by norm_num, rfl, nextPow2_6, by norm_num⟩
  simp [find_peak_reads]

/-- C1 : for every nonnegative-integer array of logical length `n`
(`0 ≤ n ≤ 2^30`, the range in which `nextPow2 n` is a representable 32-bit
`int`), stored in device memory whose cells outside `[0, n)` are arbitrary,
`exclusive_scan` terminates with cell `i` (`0 ≤ i < n`) holding the sum of
the original cells `0 .. i-1`; cells at indices `≥ n` are unconstrained. -/
theorem exclusive_scan_correct (n : ℤ) (d : ℤ → ℤ) (h0 : 0 ≤ n) (hn : n ≤ 2 ^ 30)
    (_hvals : ∀ i, 0 ≤ i → i < n → 0 ≤ d i) :
    ∀ i, 0 ≤ i → i < n → exclusive_scan n d i = ∑ t ∈ Finset.Ico (0 : ℤ) i, d t := by
  intro i hi hin
  have h1 : (1 : ℤ) ≤ n := by omega
  show exclusive_scan n d i = S d 0 i
  exact exclusive_scan_spec n d h1 hn i hi hin

theorem exclusive_scan_correct_witness :
    (0 : ℤ) ≤ 6 ∧ (6 : ℤ) ≤ 2 ^ 30 ∧ (∀ i : ℤ, 0 ≤ i → i < 6 → 0 ≤ arrC1 i) ∧
      (0 : ℤ) ≤ 3 ∧ (3 : ℤ) < 6 ∧
      exclusive_scan 6 arrC1 3 = ∑ t ∈ Finset.Ico (0 : ℤ) 3, arrC1 t := by
  have hvals : ∀ i : ℤ, 0 ≤ i → i < 6 → 0 ≤ arrC1 i := by
    intro i hl hr
    have : i = 0 ∨ i = 1 ∨ i = 2 ∨ i = 3 ∨ i = 4 ∨ i = 5 := by omega
    rcases this with rfl | rfl | rfl | rfl | rfl | rfl <;> norm_num [arrC1]
  exact ⟨by norm_num, by norm_num, hvals, by norm_num, by norm_num,
    exclusive_scan_correct 6 arrC1 (by norm_num) (by norm_num) hvals 3 (by norm_num) (by norm_num)⟩

/-- C9 : the scan results on the logical cells `[0, n)` do not depend on the
contents of the padding cells: two memories agreeing on `[0, n)` yield
identical scan outputs on `[0, n)`. -/
theorem exclusive_scan_padding_independent (n : ℤ) (d₁ d₂ : ℤ → ℤ)
    (h0 : 0 ≤ n) (hn : n ≤ 2 ^ 30)
    (hagree : ∀ i, 0 ≤ i → i < n → d₁ i = d₂ i) :
    ∀ i, 0 ≤ i → i < n → exclusive_scan n d₁ i = exclusive_scan n d₂ i := by
  intro i hi hin
  have h1 : (1 : ℤ) ≤ n := by omega
  rw [exclusive_scan_spec n d₁ h1 hn i hi hin, exclusive_scan_spec n d₂ h1 hn i hi hin]
  unfold S
  apply Finset.sum_congr rfl
  intro t ht
  rw [Finset.mem_Ico] at ht
  exact hagree t ht.1 (by omega)

theorem exclusive_scan_padding_independent_witness :
    (0 : ℤ) ≤ 6 ∧ (6 : ℤ) ≤ 2 ^ 30 ∧ (∀ i : ℤ, 0 ≤ i → i < 6 → arrC1 i = arrC9 i) ∧
      arrC1 7 ≠ arrC9 7 ∧ (0 : ℤ) ≤ 4 ∧ (4 : ℤ) < 6 ∧
      exclusive_scan 6 arrC1 4 = exclusive_scan 6 arrC9 4 := by
  have hagree : ∀ i : ℤ, 0 ≤ i → i < 6 → arrC1 i = arrC9 i := by
    intro i hl hr
    have : i = 0 ∨ i = 1 ∨ i = 2 ∨ i = 3 ∨ i = 4 ∨ i = 5 := by omega
    rcases this with rfl | rfl | rfl | rfl | rfl | rfl <;> norm_num [arrC1, arrC9]
  refine ⟨by norm_num, by norm_num, hagree, by norm_num [arrC1, arrC9], by norm_num, by norm_num,
    exclusive_scan_padding_independent 6 arrC1 arrC9 (by norm_num) (by norm_num) hagree 4
      (by norm_num) (by norm_num)⟩

end Scan

namespace Render

lemma rank_zero (hit : ℕ → ℤ) : rank hit 0 = 0 := by
  simp [rank]

lemma rank_succ (hit : ℕ → ℤ) (c : ℕ) : rank hit (c + 1) = rank hit c + hit c :=
  Finset.sum_range_succ _ _

lemma rank_nonneg (hit : ℕ → ℤ) (N : ℕ) (hhit : ∀ c, c < N → hit c = 0 ∨ hit c = 1)
    (c : ℕ) (hc : c ≤ N) : 0 ≤ rank hit c := by
  apply Finset.sum_nonneg
  intro u hu
  rw [Finset.mem_range] at hu
  rcases hhit u (by omega) with h | h <;> omega

lemma rank_split (hit : ℕ → ℤ) {a b : ℕ} (h : a ≤ b) :
    rank hit b = rank hit a + ∑ u ∈ Finset.Ico a b, hit u := by
  unfold rank
  simp only [Finset.range_eq_Ico]
  exact (Finset.sum_Ico_consecutive hit (Nat.zero_le a) h).symm

lemma rank_mono (hit : ℕ → ℤ) (N : ℕ) (hhit : ∀ c, c < N → hit c = 0 ∨ hit c = 1)
    {c c' : ℕ} (h : c ≤ c') (h' : c' ≤ N) : rank hit c ≤ rank hit c' := by
  rw [rank_split hit h]
  have : 0 ≤ ∑ u ∈ Finset.Ico c c', hit u := by
    apply Finset.sum_nonneg
    intro u hu
    rw [Finset.mem_Ico] at hu
    rcases hhit u (by omega) with h1 | h1 <;> omega
  omega

lemma rank_lt_of_hit (hit : ℕ → ℤ) (N : ℕ) (hhit : ∀ c, c < N → hit c = 0 ∨ hit c = 1)
    {c c' : ℕ} (h : c < c') (h' : c' ≤ N) (hc : hit c = 1) :
    rank hit c < rank hit c' := by
  have h1 : rank hit (c + 1) = rank hit c + 1 := by rw [rank_succ, hc]
  have h2 : rank hit (c + 1) ≤ rank hit c' := rank_mono hit N hhit (by omega) h'
  omega

lemma rank_le_self (hit : ℕ → ℤ) (N : ℕ) (hhit : ∀ c, c < N → hit c = 0 ∨ hit c = 1)
    (c : ℕ) (hc : c ≤ N) : rank hit c ≤ (c : ℤ) := by
  induction c with
  | zero => simp [rank_zero]
  | succ m ih =>
    rw [rank_succ]
    have := ih (by omega)
    rcases hhit m (by omega) with h | h <;> push_cast <;> omega

lemma scan2Iter_spec (N : ℕ) (hit : ℕ → ℤ)
    (hhit : ∀ c, c < N → hit c = 0 ∨ hit c = 1) (sh0 pfx0 : ℕ → ℤ) :
    ∀ m c, c < N → c < m * SCAN_BLOCK_DIM →
      (scan2Iter N hit m sh0 pfx0).2 c = rank hit c := by
  intro m
  induction m with
  | zero =>
    intro c _ hc
    simp at hc
  | succ m ih =>
    intro c hcN hcm
    show (scan2Chunk N hit m (scan2Iter N hit m sh0 pfx0).1
      (scan2Iter N hit m sh0 pfx0).2).2 c = rank hit c
    simp only [scan2Chunk]
    by_cases hc : m * SCAN_BLOCK_DIM ≤ c
    · have hcS : c < m * SCAN_BLOCK_DIM + SCAN_BLOCK_DIM := by
        have : (m + 1) * SCAN_BLOCK_DIM = m * SCAN_BLOCK_DIM + SCAN_BLOCK_DIM := by ring
        omega
      rw [if_pos ⟨hc, hcS, hcN⟩]
      have hout : sharedMemExclusiveScan
          (fun tid => if tid < SCAN_BLOCK_DIM ∧ m * SCAN_BLOCK_DIM + tid < N then
            hit (m * SCAN_BLOCK_DIM + tid) else (scan2Iter N hit m sh0 pfx0).1 tid)
          (c - m * SCAN_BLOCK_DIM) =
          ∑ u ∈ Finset.Ico (m * SCAN_BLOCK_DIM) c, hit u := by
        unfold sharedMemExclusiveScan
        rw [Finset.sum_Ico_eq_sum_range]
        apply Finset.sum_congr rfl
        intro u hu
        rw [Finset.mem_range] at hu
        have hcond : u < SCAN_BLOCK_DIM ∧ m * SCAN_BLOCK_DIM + u < N := ⟨by omega, by omega⟩
        show (if u < SCAN_BLOCK_DIM ∧ m * SCAN_BLOCK_DIM + u < N then
            hit (m * SCAN_BLOCK_DIM + u)
          else (scan2Iter N hit m sh0 pfx0).1 u) = hit (m * SCAN_BLOCK_DIM + u)
        exact if_pos hcond
      rw [hout]
      by_cases hm : 1 ≤ m
      · rw [if_pos hm]
        have hSpos : 0 < SCAN_BLOCK_DIM := by
          simp only [SCAN_BLOCK_DIM]
          omega
        have hmpos : 0 < m * SCAN_BLOCK_DIM := Nat.mul_pos hm hSpos
        have hlt1 : m * SCAN_BLOCK_DIM - 1 < N := by omega
        have hlt2 : m * SCAN_BLOCK_DIM - 1 < m * SCAN_BLOCK_DIM := by omega
        have ha := ih (m * SCAN_BLOCK_DIM - 1) hlt1 hlt2
        rw [ha]
        have hnn : 0 ≤ rank hit (m * SCAN_BLOCK_DIM - 1) :=
          rank_nonneg hit N hhit _ (by omega)
        rw [if_pos hnn]
        have hms : m * SCAN_BLOCK_DIM - 1 + 1 = m * SCAN_BLOCK_DIM := by omega
        have hrs : rank hit (m * SCAN_BLOCK_DIM) =
            rank hit (m * SCAN_BLOCK_DIM - 1) + hit (m * SCAN_BLOCK_DIM - 1) := by
          conv_lhs => rw [← hms]
          exact rank_succ hit _
        have hsplit : rank hit c = rank hit (m * SCAN_BLOCK_DIM) +
            ∑ u ∈ Finset.Ico (m * SCAN_BLOCK_DIM) c, hit u := rank_split hit hc
        rcases hhit (m * SCAN_BLOCK_DIM - 1) hlt1 with h0 | h1
        · rw [if_neg (by omega)]
          omega
        · rw [if_pos h1]
          omega
      · rw [if_neg hm]
        have hm0 : m = 0 := by omega
        subst hm0
        simp only [Nat.zero_mul]
        rw [rank_split hit (Nat.zero_le c), rank_zero]
        omega
    · rw [if_neg (by tauto)]
      exact ih c hcN (by omega)

/-- The scan stage produces exactly the per-tile hit ranks. -/
lemma kernelScan2_spec (N : ℕ) (hit sh0 pfx0 : ℕ → ℤ)
    (hhit : ∀ c, c < N → hit c = 0 ∨ hit c = 1) :
    ∀ c, c < N → kernelScan2 N hit sh0 pfx0 c = rank hit c := by
  intro c hc
  apply scan2Iter_spec N hit hhit sh0 pfx0 _ c hc
  have hd := Nat.div_add_mod (N + SCAN_BLOCK_DIM - 1) SCAN_BLOCK_DIM
  have hr := Nat.mod_lt (N + SCAN_BLOCK_DIM - 1)
    (show 0 < SCAN_BLOCK_DIM by simp only [SCAN_BLOCK_DIM]; omega)
  simp only [SCAN_BLOCK_DIM] at hd hr ⊢
  omega

/-- Scatter-only part of the list-build fold (circle indices `0 .. M-1` with
`M ≤ N-1`, so the sentinel branch never fires): slots hit ranks hold their
circles, all other slots are untouched. -/
lemma makeLists_scatter (N : ℕ) (hit pfx : ℕ → ℤ) (list0 : ℤ → ℤ)
    (hhit : ∀ c, c < N → hit c = 0 ∨ hit c = 1)
    (hpfx : ∀ c, c < N → pfx c = rank hit c) :
    ∀ M, M ≤ N - 1 → 1 ≤ N →
      (∀ c, c < M → hit c = 1 →
        ((List.range M).foldl
          (fun acc (c : ℕ) =>
            let idx := pfx c
            let acc1 := if hit c = 1 then Function.update acc idx (c : ℤ) else acc
            if c = N - 1 then
              (if hit c = 1 ∧ idx < (N : ℤ) - 1 then Function.update acc1 (idx + 1) (-1)
               else if hit c = 0 then Function.update acc1 idx (-1)
               else acc1)
            else acc1)
          list0) (rank hit c) = (c : ℤ)) ∧
      (∀ p : ℤ, (∀ c, c < M → ¬(hit c = 1 ∧ rank hit c = p)) →
        ((List.range M).foldl
          (fun acc (c : ℕ) =>
            let idx := pfx c
            let acc1 := if hit c = 1 then Function.update acc idx (c : ℤ) else acc
            if c = N - 1 then
              (if hit c = 1 ∧ idx < (N : ℤ) - 1 then Function.update acc1 (idx + 1) (-1)
               else if hit c = 0 then Function.update acc1 idx (-1)
               else acc1)
            else acc1)
          list0) p = list0 p) := by
  intro M
  induction M with
  | zero =>
    intro _ _
    constructor
    · intro c hc
      omega
    · intro p _
      rfl
  | succ M ih =>
    intro hM hN
    obtain ⟨ihA, ihB⟩ := ih (by omega) hN
    rw [List.range_succ, List.foldl_append, List.foldl_cons, List.foldl_nil]
    have hMne : ¬ (M = N - 1) := by omega
    simp only [hMne, if_false]
    constructor
    · intro c hc hc1
      by_cases hcM : c = M
      · subst hcM
        rw [if_pos hc1, hpfx c (by omega)]
        rw [Function.update_same]
      · have hcM' : c < M := by omega
        by_cases hhM : hit M = 1
        · rw [if_pos hhM, hpfx M (by omega)]
          rw [Function.update_noteq ?_ _ _]
          · exact ihA c hcM' hc1
          · have := rank_lt_of_hit hit N hhit (show c < M by omega) (by omega) hc1
            omega
        · rw [if_neg hhM]
          exact ihA c hcM' hc1
    · intro p hp
      by_cases hhM : hit M = 1
      · rw [if_pos hhM, hpfx M (by omega)]
        rw [Function.update_noteq ?_ _ _]
        · exact ihB p (fun c hc => hp c (by omega))
        · have := hp M (by omega)
          intro hcon
          exact this ⟨hhM, hcon.symm⟩
      · rw [if_neg hhM]
        exact ihB p (fun c hc => hp c (by omega))

/-- Final contents of one tile's compacted list: slot `rank c` holds `c` for
every hit circle, slot `K = rank N` (the tile's hit count) holds the `-1`
sentinel when `K < N` (when `K = N`, i.e. every circle hit, no sentinel is
written), and every other slot keeps its previous contents. -/
lemma kernelMakeLists_char (N : ℕ) (hit pfx : ℕ → ℤ) (list0 : ℤ → ℤ)
    (hN : 1 ≤ N) (hhit : ∀ c, c < N → hit c = 0 ∨ hit c = 1)
    (hpfx : ∀ c, c < N → pfx c = rank hit c) :
    (∀ c, c < N → hit c = 1 →
      kernelMakeLists N hit pfx list0 (rank hit c) = (c : ℤ)) ∧
    (rank hit N < (N : ℤ) → kernelMakeLists N hit pfx list0 (rank hit N) = -1) ∧
    (∀ p : ℤ, (∀ c, c < N → ¬(hit c = 1 ∧ rank hit c = p)) →
      (p ≠ rank hit N ∨ ¬(rank hit N < (N : ℤ))) →
      kernelMakeLists N hit pfx list0 p = list0 p) := by
  obtain ⟨hA, hB⟩ := makeLists_scatter N hit pfx list0 hhit hpfx (N - 1) le_rfl hN
  unfold kernelMakeLists
  rw [show List.range N = List.range (N - 1) ++ [N - 1] by
    rw [← List.range_succ]
    congr 1
    omega]
  rw [List.foldl_append, List.foldl_cons, List.foldl_nil]
  simp only [eq_self_iff_true, if_true]
  rw [hpfx (N - 1) (by omega)]
  have hKsucc : rank hit N = rank hit (N - 1) + hit (N - 1) := by
    conv_lhs => rw [show N = (N - 1) + 1 by omega]
    exact rank_succ hit _
  have hrle : rank hit (N - 1) ≤ ((N - 1 : ℕ) : ℤ) :=
    rank_le_self hit N hhit (N - 1) (by omega)
  have hcastN : ((N - 1 : ℕ) : ℤ) = (N : ℤ) - 1 := by
    push_cast [show (1 : ℕ) ≤ N from hN]
    omega
  rcases hhit (N - 1) (by omega) with h0 | h1
  · -- last circle missed the tile: sentinel at rank (N-1) = K
    have hne1 : ¬ (hit (N - 1) = 1) := by rw [h0]; norm_num
    rw [if_neg (show ¬(hit (N - 1) = 1 ∧ rank hit (N - 1) < (N : ℤ) - 1) from
          fun hcon => hne1 hcon.1),
        if_pos h0, if_neg hne1]
    have hK : rank hit N = rank hit (N - 1) := by omega
    refine ⟨?_, ?_, ?_⟩
    · intro c hc hc1
      have hcne : c ≠ N - 1 := fun hcon => by rw [hcon, h0] at hc1; omega
      have hclt : c < N - 1 := by omega
      have hrlt : rank hit c < rank hit (N - 1) :=
        rank_lt_of_hit hit N hhit hclt (by omega) hc1
      rw [Function.update_noteq (by omega)]
      exact hA c hclt hc1
    · intro _
      rw [hK, Function.update_same]
    · intro p hp hps
      have hpK : p ≠ rank hit N := by
        rcases hps with h | h
        · exact h
        · exfalso
          apply h
          omega
      rw [Function.update_noteq (by omega)]
      exact hB p (fun c hc => hp c (by omega))
  · -- last circle hit the tile
    rw [if_pos h1]
    have hK : rank hit N = rank hit (N - 1) + 1 := by omega
    by_cases hlt : rank hit (N - 1) < (N : ℤ) - 1
    · rw [if_pos ⟨h1, hlt⟩]
      refine ⟨?_, ?_, ?_⟩
      · intro c hc hc1
        by_cases hcN : c = N - 1
        · subst hcN
          rw [Function.update_noteq (by omega), Function.update_same]
        · have hclt : c < N - 1 := by omega
          have hrlt : rank hit c < rank hit (N - 1) :=
            rank_lt_of_hit hit N hhit hclt (by omega) hc1
          rw [Function.update_noteq (by omega), Function.update_noteq (by omega)]
          exact hA c hclt hc1
      · intro _
        rw [hK, Function.update_same]
      · intro p hp hps
        have hpK : p ≠ rank hit N := by
          rcases hps with h | h
          · exact h
          · exfalso
            apply h
            omega
        have hpidx : p ≠ rank hit (N - 1) := by
          intro hcon
          exact hp (N - 1) (by omega) ⟨h1, hcon.symm⟩
        rw [Function.update_noteq (by omega), Function.update_noteq (by omega)]
        exact hB p (fun c hc => hp c (by omega))
    · have hne0 : ¬ (hit (N - 1) = 0) := by rw [h1]; norm_num
      rw [if_neg (show ¬(hit (N - 1) = 1 ∧ rank hit (N - 1) < (N : ℤ) - 1) from
            fun hcon => hlt hcon.2),
          if_neg hne0]
      refine ⟨?_, ?_, ?_⟩
      · intro c hc hc1
        by_cases hcN : c = N - 1
        · subst hcN
          rw [Function.update_same]
        · have hclt : c < N - 1 := by omega
          have hrlt : rank hit c < rank hit (N - 1) :=
            rank_lt_of_hit hit N hhit hclt (by omega) hc1
          rw [Function.update_noteq (by omega)]
          exact hA c hclt hc1
      · intro hcon
        omega
      · intro p hp _
        have hpidx : p ≠ rank hit (N - 1) := by
          intro hcon
          exact hp (N - 1) (by omega) ⟨h1, hcon.symm⟩
        rw [Function.update_noteq (by omega)]
        exact hB p (fun c hc => hp c (by omega))

/-- Every output slot `p < K` is claimed by exactly one hit circle. -/
lemma rank_surj (hit : ℕ → ℤ) (N : ℕ) (hhit : ∀ c, c < N → hit c = 0 ∨ hit c = 1) :
    ∀ p : ℤ, 0 ≤ p → p < rank hit N → ∃ c, c < N ∧ hit c = 1 ∧ rank hit c = p := by
  induction N with
  | zero =>
    intro p h0 hp
    rw [rank_zero] at hp
    omega
  | succ M ih =>
    intro p h0 hp
    rw [rank_succ] at hp
    rcases hhit M (by omega) with h | h
    · rw [h, add_zero] at hp
      obtain ⟨c, hc1, hc2, hc3⟩ := ih (fun c hc => hhit c (by omega)) p h0 hp
      exact ⟨c, by omega, hc2, hc3⟩
    · rw [h] at hp
      by_cases hpm : p < rank hit M
      · obtain ⟨c, hc1, hc2, hc3⟩ := ih (fun c hc => hhit c (by omega)) p h0 hpm
        exact ⟨c, by omega, hc2, hc3⟩
      · exact ⟨M, by omega, h, by omega⟩

/-- C4 : the scan stage's prefix row satisfies `prefix[0] = 0`,
`prefix[c+1] = prefix[c] + hit[c]` for every `c` (chunk boundaries of the
carry-propagating chunked scan included), and
`prefix[N-1] + hit[N-1]` equals the tile's total hit count, for every tile
row of 0/1 hit flags and any uninitialized shared/prefix contents. -/
theorem kernelScan2_prefix_invariant (N : ℕ) (hit sh0 pfx0 : ℕ → ℤ) (hN : 1 ≤ N)
    (hhit : ∀ c, c < N → hit c = 0 ∨ hit c = 1) :
    kernelScan2 N hit sh0 pfx0 0 = 0 ∧
    (∀ c, c + 1 < N →
      kernelScan2 N hit sh0 pfx0 (c + 1) = kernelScan2 N hit sh0 pfx0 c + hit c) ∧
    kernelScan2 N hit sh0 pfx0 (N - 1) + hit (N - 1) = ∑ u ∈ Finset.range N, hit u := by
  refine ⟨?_, ?_, ?_⟩
  · rw [kernelScan2_spec N hit sh0 pfx0 hhit 0 (by omega), rank_zero]
  · intro c hc
    rw [kernelScan2_spec N hit sh0 pfx0 hhit (c + 1) (by omega),
        kernelScan2_spec N hit sh0 pfx0 hhit c (by omega), rank_succ]
  · rw [kernelScan2_spec N hit sh0 pfx0 hhit (N - 1) (by omega)]
    have : rank hit N = rank hit (N - 1) + hit (N - 1) := by
      conv_lhs => rw [show N = (N - 1) + 1 by omega]
      exact rank_succ hit _
    show rank hit (N - 1) + hit (N - 1) = rank hit N
    omega

theorem kernelScan2_prefix_invariant_witness :
    (1 : ℕ) ≤ 3 ∧ (∀ c, c < 3 → hitW c = 0 ∨ hitW c = 1) ∧
      (kernelScan2 3 hitW g37 g37 0 = 0 ∧
       (∀ c, c + 1 < 3 →
         kernelScan2 3 hitW g37 g37 (c + 1) = kernelScan2 3 hitW g37 g37 c + hitW c) ∧
       kernelScan2 3 hitW g37 g37 (3 - 1) + hitW (3 - 1) = ∑ u ∈ Finset.range 3, hitW u) :=
  ⟨by norm_num, by decide, kernelScan2_prefix_invariant 3 hitW g37 g37 (by norm_num) (by decide)⟩

/-- C2 (amended) : after the list-build stage, slot `p` of the live prefix
(`0 ≤ p < K`, `K` the tile's hit count) holds the unique hit circle of rank
`p`; ranks are strictly increasing in circle index, so the live prefix is
strictly ascending and is exactly the hit set; and the sentinel is written
exactly once, at slot `K` — but only when `K < N`.  (When every circle hits
the tile, `K = N`, the code writes no sentinel at all; the unamended claim
fails there, see the counterexample.) -/
theorem tile_list_live_prefix (N : ℕ) (hit sh0 pfx0 : ℕ → ℤ) (list0 : ℤ → ℤ)
    (hN : 1 ≤ N) (hhit : ∀ c, c < N → hit c = 0 ∨ hit c = 1) :
    (∀ p : ℤ, 0 ≤ p → p < rank hit N →
      ∃ c, c < N ∧ hit c = 1 ∧ rank hit c = p ∧
        tilePipelineList N hit sh0 pfx0 list0 p = (c : ℤ)) ∧
    (∀ c c', c < c' → c' < N → hit c = 1 → hit c' = 1 → rank hit c < rank hit c') ∧
    (∀ c, c < N → hit c = 1 →
      0 ≤ rank hit c ∧ rank hit c < rank hit N ∧
        tilePipelineList N hit sh0 pfx0 list0 (rank hit c) = (c : ℤ)) ∧
    (rank hit N < (N : ℤ) → tilePipelineList N hit sh0 pfx0 list0 (rank hit N) = -1) := by
  have hpfx : ∀ c, c < N → kernelScan2 N hit sh0 pfx0 c = rank hit c :=
    kernelScan2_spec N hit sh0 pfx0 hhit
  obtain ⟨hA, hS, hU⟩ := kernelMakeLists_char N hit (kernelScan2 N hit sh0 pfx0) list0 hN hhit hpfx
  refine ⟨?_, ?_, ?_, hS⟩
  · intro p h0 hp
    obtain ⟨c, hc1, hc2, hc3⟩ := rank_surj hit N hhit p h0 hp
    refine ⟨c, hc1, hc2, hc3, ?_⟩
    rw [← hc3]
    exact hA c hc1 hc2
  · intro c c' h1 h2 h3 h4
    exact rank_lt_of_hit hit N hhit h1 (by omega) h3
  · intro c hc hc1
    refine ⟨rank_nonneg hit N hhit c (by omega), ?_, hA c hc hc1⟩
    exact rank_lt_of_hit hit N hhit hc (le_refl N) hc1

theorem tile_list_live_prefix_witness :
    (1 : ℕ) ≤ 3 ∧ (∀ c, c < 3 → hitW c = 0 ∨ hitW c = 1) ∧
      ((∀ p : ℤ, 0 ≤ p → p < rank hitW 3 →
        ∃ c, c < 3 ∧ hitW c = 1 ∧ rank hitW c = p ∧
          tilePipelineList 3 hitW g37 g37 (fun _ => 7) p = (c : ℤ)) ∧
      (∀ c c', c < c' → c' < 3 → hitW c = 1 → hitW c' = 1 → rank hitW c < rank hitW c') ∧
      (∀ c, c < 3 → hitW c = 1 →
        0 ≤ rank hitW c ∧ rank hitW c < rank hitW 3 ∧
          tilePipelineList 3 hitW g37 g37 (fun _ => 7) (rank hitW c) = (c : ℤ)) ∧
      (rank hitW 3 < (3 : ℤ) → tilePipelineList 3 hitW g37 g37 (fun _ => 7) (rank hitW 3) = -1)) :=
  ⟨by norm_num, by decide,
    tile_list_live_prefix 3 hitW g37 g37 (fun _ => 7) (by norm_num) (by decide)⟩

/-- C2 (counterexample to the unamended claim) : for a tile hit by all
`N = 2` circles (hit count `K = 2 = prefix[1] + 1`), the claim places the
sentinel at slot 2 — but the list only has slots 0 and 1, both live
(`[0, 1]`), and the code writes no `-1` anywhere: slot 2 keeps its stale
contents `7`. -/
theorem tile_list_no_sentinel_when_full :
    tilePipelineList 2 (fun _ => 1) g37 g37 (fun _ => 7) 0 = 0 ∧
    tilePipelineList 2 (fun _ => 1) g37 g37 (fun _ => 7) 1 = 1 ∧
    tilePipelineList 2 (fun _ => 1) g37 g37 (fun _ => 7) 2 = 7 ∧
    ((0 : ℤ) ≠ -1 ∧ (1 : ℤ) ≠ -1 ∧ (7 : ℤ) ≠ -1) := by
  refine ⟨?_, ?_, ?_, by norm_num⟩ <;> decide

/-- C8 (amended) : after the list-build stage the tile's list holds, in
increasing circle-index order, the hit circles in slots `0 .. K-1`, then the
`-1` sentinel at slot `K` when `K < N`; slots after `K` are NOT reset to the
sentinel — they keep whatever the buffer previously held (the clearing
memset in `CudaRenderer::render` is commented out). -/
theorem tile_list_contents (N : ℕ) (hit sh0 pfx0 : ℕ → ℤ) (list0 : ℤ → ℤ)
    (hN : 1 ≤ N) (hhit : ∀ c, c < N → hit c = 0 ∨ hit c = 1) :
    (∀ c, c < N → hit c = 1 →
      tilePipelineList N hit sh0 pfx0 list0 (rank hit c) = (c : ℤ)) ∧
    (∀ c c', c < c' → c' < N → hit c = 1 → hit c' = 1 → rank hit c < rank hit c') ∧
    (rank hit N < (N : ℤ) → tilePipelineList N hit sh0 pfx0 list0 (rank hit N) = -1) ∧
    (∀ p : ℤ, rank hit N < p → tilePipelineList N hit sh0 pfx0 list0 p = list0 p) := by
  have hpfx : ∀ c, c < N → kernelScan2 N hit sh0 pfx0 c = rank hit c :=
    kernelScan2_spec N hit sh0 pfx0 hhit
  obtain ⟨hA, hS, hU⟩ :=
    kernelMakeLists_char N hit (kernelScan2 N hit sh0 pfx0) list0 hN hhit hpfx
  refine ⟨hA, ?_, hS, ?_⟩
  · intro c c' h1 h2 h3 h4
    exact rank_lt_of_hit hit N hhit h1 (by omega) h3
  · intro p hp
    apply hU
    · rintro c hc ⟨hc1, hc2⟩
      have h1 : rank hit c < rank hit N := rank_lt_of_hit hit N hhit hc le_rfl hc1
      omega
    · left
      omega

theorem tile_list_contents_witness :
    (1 : ℕ) ≤ 3 ∧ (∀ c, c < 3 → hitW c = 0 ∨ hitW c = 1) ∧
      ((∀ c, c < 3 → hitW c = 1 →
        tilePipelineList 3 hitW g37 g37 (fun _ => 7) (rank hitW c) = (c : ℤ)) ∧
      (∀ c c', c < c' → c' < 3 → hitW c = 1 → hitW c' = 1 → rank hitW c < rank hitW c') ∧
      (rank hitW 3 < (3 : ℤ) → tilePipelineList 3 hitW g37 g37 (fun _ => 7) (rank hitW 3) = -1) ∧
      (∀ p : ℤ, rank hitW 3 < p → tilePipelineList 3 hitW g37 g37 (fun _ => 7) p = (fun _ => (7 : ℤ)) p)) :=
  ⟨by norm_num, by decide,
    tile_list_contents 3 hitW g37 g37 (fun _ => 7) (by norm_num) (by decide)⟩

/-- C8 (counterexample to the unamended claim) : tile row `hit = [1,0,0]`
(`N = 3`, hit count 1): the code writes `list[0] = 0` and the sentinel
`list[1] = -1`, but the unused trailing slot 2 keeps its stale contents `7`
instead of the claimed sentinel. -/
theorem tile_list_trailing_not_sentinel :
    tilePipelineList 3 (fun c => if c = 0 then 1 else 0) g37 g37 (fun _ => 7) 0 = 0 ∧
    tilePipelineList 3 (fun c => if c = 0 then 1 else 0) g37 g37 (fun _ => 7) 1 = -1 ∧
    tilePipelineList 3 (fun c => if c = 0 then 1 else 0) g37 g37 (fun _ => 7) 2 = 7 ∧
    (7 : ℤ) ≠ -1 := by
  refine ⟨?_, ?_, ?_, by norm_num⟩ <;> decide

lemma mark_gridX (W bs : ℕ) :
    (⌊((W : ℚ) + (bs : ℚ) - 1) / (bs : ℚ)⌋ : ℤ) = ((W : ℤ) + (bs : ℤ) - 1) / (bs : ℤ) := by
  have h : ((W : ℚ) + (bs : ℚ) - 1) = (((W : ℤ) + (bs : ℤ) - 1 : ℤ) : ℚ) := by
    push_cast
    ring
  rw [h, Rat.floor_intCast_div_natCast]

lemma kernelMarkBlocks_eq_one_iff (W H bs b : ℕ) (px py rad : ℚ) :
    kernelMarkBlocks W H bs b px py rad = 1 ↔
      (((((bs : ℤ) * ((b : ℤ) % (((W : ℤ) + (bs : ℤ) - 1) / (bs : ℤ))) : ℤ) : ℚ) + 1/2) / (W : ℚ)
          ≤ px + rad ∧
       px - rad ≤
        ((((bs : ℤ) * ((b : ℤ) % (((W : ℤ) + (bs : ℤ) - 1) / (bs : ℤ)) + 1) : ℤ) : ℚ) + 1/2) / (W : ℚ) ∧
       ((((bs : ℤ) * ((b : ℤ) / (((W : ℤ) + (bs : ℤ) - 1) / (bs : ℤ))) : ℤ) : ℚ) + 1/2) / (H : ℚ)
          ≤ py + rad ∧
       py - rad ≤
        ((((bs : ℤ) * ((b : ℤ) / (((W : ℤ) + (bs : ℤ) - 1) / (bs : ℤ)) + 1) : ℤ) : ℚ) + 1/2) / (H : ℚ)) := by
  unfold kernelMarkBlocks circleInBox
  rw [mark_gridX]
  constructor
  · intro h
    by_contra hcon
    rw [if_neg hcon] at h
    exact absurd h (by norm_num)
  · intro h
    rw [if_pos h]

lemma kernelMarkBlocks_eq_zero_iff (W H bs b : ℕ) (px py rad : ℚ) :
    kernelMarkBlocks W H bs b px py rad = 0 ↔
      ¬ (((((bs : ℤ) * ((b : ℤ) % (((W : ℤ) + (bs : ℤ) - 1) / (bs : ℤ))) : ℤ) : ℚ) + 1/2) / (W : ℚ)
          ≤ px + rad ∧
       px - rad ≤
        ((((bs : ℤ) * ((b : ℤ) % (((W : ℤ) + (bs : ℤ) - 1) / (bs : ℤ)) + 1) : ℤ) : ℚ) + 1/2) / (W : ℚ) ∧
       ((((bs : ℤ) * ((b : ℤ) / (((W : ℤ) + (bs : ℤ) - 1) / (bs : ℤ))) : ℤ) : ℚ) + 1/2) / (H : ℚ)
          ≤ py + rad ∧
       py - rad ≤
        ((((bs : ℤ) * ((b : ℤ) / (((W : ℤ) + (bs : ℤ) - 1) / (bs : ℤ)) + 1) : ℤ) : ℚ) + 1/2) / (H : ℚ)) := by
  unfold kernelMarkBlocks circleInBox
  rw [mark_gridX]
  constructor
  · intro h
    intro hcon
    rw [if_pos hcon] at h
    exact absurd h (by norm_num)
  · intro h
    rw [if_neg h]

/-- C6 (amended) : the mark phase sets `hit[b*N+c] = 1` iff circle `c`'s
axis-aligned bounding box inclusively overlaps the tile box the code
actually builds — the normalized region
`[(bs*bx + 0.5)/W, (bs*(bx+1) + 0.5)/W] × [(bs*bY + 0.5)/H, (bs*(bY+1) + 0.5)/H]`,
i.e. the claimed region shifted by half a pixel and NOT clamped to the image
bounds; moreover a circle whose bounding box lies strictly inside one tile's
box hits that tile and no other.  (The unamended claim's box
`[bs*tx, bs*(tx+1)) × ...` clamped to the image differs from the code's: see
the counterexample.) -/
theorem kernelMarkBlocks_box (W H bs b : ℕ) (px py rad : ℚ) (gX bx bY : ℤ)
    (hW : 0 < W) (hH : 0 < H) (hbs : 0 < bs)
    (hgX : gX = ((W : ℤ) + (bs : ℤ) - 1) / (bs : ℤ))
    (hbx : bx = (b : ℤ) % gX) (hbY : bY = (b : ℤ) / gX) :
    (kernelMarkBlocks W H bs b px py rad = 1 ↔
      (((((bs : ℤ) * bx : ℤ) : ℚ) + 1/2) / (W : ℚ) ≤ px + rad ∧
       px - rad ≤ ((((bs : ℤ) * (bx + 1) : ℤ) : ℚ) + 1/2) / (W : ℚ) ∧
       ((((bs : ℤ) * bY : ℤ) : ℚ) + 1/2) / (H : ℚ) ≤ py + rad ∧
       py - rad ≤ ((((bs : ℤ) * (bY + 1) : ℤ) : ℚ) + 1/2) / (H : ℚ))) ∧
    (∀ b' : ℕ, b ≠ b' →
      ((((bs : ℤ) * bx : ℤ) : ℚ) + 1/2) / (W : ℚ) < px - rad →
      px + rad < ((((bs : ℤ) * (bx + 1) : ℤ) : ℚ) + 1/2) / (W : ℚ) →
      ((((bs : ℤ) * bY : ℤ) : ℚ) + 1/2) / (H : ℚ) < py - rad →
      py + rad < ((((bs : ℤ) * (bY + 1) : ℤ) : ℚ) + 1/2) / (H : ℚ) →
      kernelMarkBlocks W H bs b' px py rad = 0) := by
  subst hgX hbx hbY
  constructor
  · exact kernelMarkBlocks_eq_one_iff W H bs b px py rad
  · intro b' hne h1 h2 h3 h4
    set gX : ℤ := ((W : ℤ) + (bs : ℤ) - 1) / (bs : ℤ) with hgXdef
    have hbspos : (0 : ℤ) < (bs : ℤ) := by exact_mod_cast hbs
    have hWQ : (0 : ℚ) < (W : ℚ) := by exact_mod_cast hW
    have hHQ : (0 : ℚ) < (H : ℚ) := by exact_mod_cast hH
    have hgXpos : 0 < gX := by
      have hnum : ((bs : ℤ)) ≤ ((W : ℤ) + (bs : ℤ) - 1) := by
        have : (1 : ℤ) ≤ (W : ℤ) := by exact_mod_cast hW
        omega
      have h2' := Int.ediv_le_ediv hbspos hnum
      rw [Int.ediv_self (by omega)] at h2'
      omega
    have hneZ : (b' : ℤ) % gX ≠ (b : ℤ) % gX ∨ (b' : ℤ) / gX ≠ (b : ℤ) / gX := by
      by_contra hcon
      push_neg at hcon
      apply hne
      have hb : gX * ((b : ℤ) / gX) + (b : ℤ) % gX = (b : ℤ) := Int.ediv_add_emod _ _
      have hb' : gX * ((b' : ℤ) / gX) + (b' : ℤ) % gX = (b' : ℤ) := Int.ediv_add_emod _ _
      have : (b : ℤ) = (b' : ℤ) := by rw [← hb, ← hb', hcon.1, hcon.2]
      exact_mod_cast this
    rw [kernelMarkBlocks_eq_zero_iff]
    rw [← hgXdef]
    rintro ⟨c1, c2, c3, c4⟩
    have hdivW : ∀ u v : ℤ, u ≤ v →
        (((u : ℚ)) + 1/2) / (W : ℚ) ≤ (((v : ℚ)) + 1/2) / (W : ℚ) := by
      intro u v huv
      apply (div_le_div_iff_of_pos_right hWQ).mpr
      have : (u : ℚ) ≤ (v : ℚ) := by exact_mod_cast huv
      linarith
    have hdivH : ∀ u v : ℤ, u ≤ v →
        (((u : ℚ)) + 1/2) / (H : ℚ) ≤ (((v : ℚ)) + 1/2) / (H : ℚ) := by
      intro u v huv
      apply (div_le_div_iff_of_pos_right hHQ).mpr
      have : (u : ℚ) ≤ (v : ℚ) := by exact_mod_cast huv
      linarith
    rcases hneZ with hx | hy
    · rcases lt_or_gt_of_ne hx with hlt | hgt
      · -- b' is in a column strictly to the left: its right edge is at most b's left edge
        have hnum : (bs : ℤ) * ((b' : ℤ) % gX + 1) ≤ (bs : ℤ) * ((b : ℤ) % gX) :=
          mul_le_mul_of_nonneg_left (by omega) hbspos.le
        have := hdivW _ _ hnum
        linarith
      · -- b' is in a column strictly to the right: its left edge is at least b's right edge
        have hnum : (bs : ℤ) * ((b : ℤ) % gX + 1) ≤ (bs : ℤ) * ((b' : ℤ) % gX) :=
          mul_le_mul_of_nonneg_left (by omega) hbspos.le
        have := hdivW _ _ hnum
        linarith
    · rcases lt_or_gt_of_ne hy with hlt | hgt
      · have hnum : (bs : ℤ) * ((b' : ℤ) / gX + 1) ≤ (bs : ℤ) * ((b : ℤ) / gX) :=
          mul_le_mul_of_nonneg_left (by omega) hbspos.le
        have := hdivH _ _ hnum
        linarith
      · have hnum : (bs : ℤ) * ((b : ℤ) / gX + 1) ≤ (bs : ℤ) * ((b' : ℤ) / gX) :=
          mul_le_mul_of_nonneg_left (by omega) hbspos.le
        have := hdivH _ _ hnum
        linarith

/-- C6 (counterexample to the unamended claim) : one 64×64 tile on a 64×64
image; the circle centered at `(0.001, 0.5)` with radius `0.001` overlaps the
claimed tile region `[0,1] × [0,1]` (clamped, inclusive), but its bounding
box `[0, 0.002]` lies entirely left of the code's half-pixel-shifted box edge
`0.5/64 = 0.0078125`, so the mark phase stores 0. -/
theorem kernelMarkBlocks_half_pixel_gap :
    kernelMarkBlocks 64 64 64 0 (1/1000) (1/2) (1/1000) = 0 ∧
    claimTileOverlap 64 64 64 0 (1/1000) (1/2) (1/1000) := by
  constructor
  · rw [kernelMarkBlocks_eq_zero_iff]
    norm_num
  · simp only [claimTileOverlap]
    norm_num

theorem kernelMarkBlocks_box_witness :
    (0 < 64) ∧ (0 < 16) ∧ ((4 : ℤ) = ((64 : ℤ) + (16 : ℤ) - 1) / (16 : ℤ)) ∧
    ((1 : ℤ) = ((5 : ℕ) : ℤ) % 4) ∧ ((1 : ℤ) = ((5 : ℕ) : ℤ) / 4) ∧
    ((kernelMarkBlocks 64 64 16 5 (2/5) (2/5) (1/100) = 1 ↔
      (((((16 : ℤ) * 1 : ℤ) : ℚ) + 1/2) / (64 : ℚ) ≤ 2/5 + 1/100 ∧
       2/5 - 1/100 ≤ ((((16 : ℤ) * (1 + 1) : ℤ) : ℚ) + 1/2) / (64 : ℚ) ∧
       ((((16 : ℤ) * 1 : ℤ) : ℚ) + 1/2) / (64 : ℚ) ≤ 2/5 + 1/100 ∧
       2/5 - 1/100 ≤ ((((16 : ℤ) * (1 + 1) : ℤ) : ℚ) + 1/2) / (64 : ℚ))) ∧
     (∀ b' : ℕ, 5 ≠ b' →
      ((((16 : ℤ) * 1 : ℤ) : ℚ) + 1/2) / (64 : ℚ) < 2/5 - 1/100 →
      2/5 + 1/100 < ((((16 : ℤ) * (1 + 1) : ℤ) : ℚ) + 1/2) / (64 : ℚ) →
      ((((16 : ℤ) * 1 : ℤ) : ℚ) + 1/2) / (64 : ℚ) < 2/5 - 1/100 →
      2/5 + 1/100 < ((((16 : ℤ) * (1 + 1) : ℤ) : ℚ) + 1/2) / (64 : ℚ) →
      kernelMarkBlocks 64 64 16 b' (2/5) (2/5) (1/100) = 0)) :=
  ⟨by norm_num, by norm_num, by decide, by decide, by decide,
   kernelMarkBlocks_box 64 64 16 5 (2/5) (2/5) (1/100) 4 1 1
     (by norm_num) (by norm_num) (by norm_num) (by decide) (by decide) (by decide)⟩

lemma renderSpec_nochange (position : ℤ → C3q) (radius : ℤ → ℚ) (color : ℤ → C3q)
    (pcx pcy : ℚ) (cs : List ℤ) (ex : C4q)
    (h : ∀ c ∈ cs, ¬ contributesAt position radius pcx pcy c) :
    renderSpecComposite position radius color pcx pcy cs ex = ex := by
  induction cs generalizing ex with
  | nil => rfl
  | cons c t ih =>
    unfold renderSpecComposite
    rw [List.foldl_cons, if_neg (h c (List.mem_cons_self c t))]
    exact ih ex (fun c' hc' => h c' (List.mem_cons_of_mem c hc'))

/-- The inlined loop of `kernelRenderPixelsLocal` refines the claim-level
sequential composite: after walking a live list `cs` (listed at positions
`i, i+1, ...`, terminated by fuel or by a sentinel), `existingColor` is
exactly the over-operator fold over the contributing circles in list order,
and `newColor` — the value the kernel will store — is that fold when at
least one circle contributed, and its previous (uninitialized) value
otherwise. -/
lemma renderLoop_spec (position : ℤ → C3q) (radius : ℤ → ℚ) (color : ℤ → C3q)
    (pcx pcy : ℚ) :
    ∀ (cs : List ℤ) (fuel i : ℕ) (list : ℕ → ℤ) (ex nc : C4q),
      cs.length ≤ fuel →
      (∀ k (hk : k < cs.length), list (i + k) = cs.get ⟨k, hk⟩) →
      (cs.length < fuel → list (i + cs.length) < 0) →
      (∀ c ∈ cs, 0 ≤ c) →
      renderPixelGo position radius color pcx pcy list fuel i ex nc =
        (renderSpecComposite position radius color pcx pcy cs ex,
         if ∃ c ∈ cs, contributesAt position radius pcx pcy c then
           renderSpecComposite position radius color pcx pcy cs ex
         else nc) := by
  intro cs
  induction cs with
  | nil =>
    intro fuel i list ex nc _ _ hsent _
    have hspec : renderSpecComposite position radius color pcx pcy [] ex = ex := rfl
    rw [hspec]
    simp only [List.not_mem_nil, false_and, exists_false, if_neg, if_false]
    cases fuel with
    | zero => rfl
    | succ f =>
      have hneg : list i < 0 := by simpa using hsent (by simp)
      rw [renderPixelGo, if_pos hneg]
  | cons c t ih =>
    intro fuel i list ex nc hlen hlist hsent hpos
    obtain ⟨f, rfl⟩ : ∃ f, fuel = f + 1 := by
      cases fuel with
      | zero => simp at hlen
      | succ f => exact ⟨f, rfl⟩
    have hc0 : list i = c := by
      have := hlist 0 (by simp)
      simpa using this
    have hcpos : (0 : ℤ) ≤ c := hpos c (List.mem_cons_self c t)
    rw [renderPixelGo, if_neg (by omega)]
    rw [hc0]
    have hlist' : ∀ k (hk : k < t.length), list (i + 1 + k) = t.get ⟨k, hk⟩ := by
      intro k hk
      have := hlist (k + 1) (by simp; omega)
      rw [show i + (k + 1) = i + 1 + k by omega] at this
      simpa using this
    have hsent' : t.length < f → list (i + 1 + t.length) < 0 := by
      intro hf
      have := hsent (by simp; omega)
      rw [show i + (c :: t).length = i + 1 + t.length by simp; omega] at this
      exact this
    have hpos' : ∀ c' ∈ t, (0 : ℤ) ≤ c' := fun c' hc' => hpos c' (List.mem_cons_of_mem c hc')
    by_cases hcontrib : contributesAt position radius pcx pcy c
    · rw [if_neg (by
        unfold contributesAt at hcontrib
        push_neg
        exact hcontrib)]
      rw [ih f (i + 1) list _ _ (by simp at hlen ⊢; omega) hlist' hsent' hpos']
      have hspec : renderSpecComposite position radius color pcx pcy (c :: t) ex =
          renderSpecComposite position radius color pcx pcy t (overOp color c ex) := by
        unfold renderSpecComposite
        rw [List.foldl_cons, if_pos hcontrib]
      have hov : (⟨1/2 * (color c).x + (1 - 1/2) * ex.x,
                   1/2 * (color c).y + (1 - 1/2) * ex.y,
                   1/2 * (color c).z + (1 - 1/2) * ex.z,
                   1/2 + ex.w⟩ : C4q) = overOp color c ex := rfl
      rw [hov, hspec]
      have hexcons : ∃ c' ∈ c :: t, contributesAt position radius pcx pcy c' :=
        ⟨c, List.mem_cons_self c t, hcontrib⟩
      rw [if_pos hexcons]
      by_cases hex : ∃ c' ∈ t, contributesAt position radius pcx pcy c'
      · rw [if_pos hex]
      · rw [if_neg hex]
        push_neg at hex
        rw [renderSpec_nochange position radius color pcx pcy t (overOp color c ex) hex]
    · rw [if_pos (by
        unfold contributesAt at hcontrib
        push_neg at hcontrib
        exact hcontrib)]
      rw [ih f (i + 1) list ex nc (by simp at hlen ⊢; omega) hlist' hsent' hpos']
      have hspec : renderSpecComposite position radius color pcx pcy (c :: t) ex =
          renderSpecComposite position radius color pcx pcy t ex := by
        unfold renderSpecComposite
        rw [List.foldl_cons, if_neg hcontrib]
      rw [hspec]
      congr 1
      by_cases hex : ∃ c' ∈ t, contributesAt position radius pcx pcy c'
      · rw [if_pos hex, if_pos (by
          obtain ⟨c', hc1, hc2⟩ := hex
          exact ⟨c', List.mem_cons_of_mem c hc1, hc2⟩)]
      · rw [if_neg hex, if_neg (by
          rintro ⟨c', hc1, hc2⟩
          rcases List.mem_cons.mp hc1 with rfl | hmem
          · exact hcontrib hc2
          · exact hex ⟨c', hmem, hc2⟩)]

/-- C7: the inlined per-pixel loop of `kernelRenderPixelsLocal` walks the
tile's compacted list in ascending list order; a listed circle whose squared
pixel-to-center distance exceeds `radius²` contributes nothing, and each
contributing circle composites sequentially by
`outRGB = alpha*circleRGB + (1-alpha)*existingRGB`, `outAlpha = alpha + existingAlpha`
with `alpha = 1/2` and no clamping of the alpha sum: the loop's accumulator
equals the claim-level sequential over-operator fold, the stored `newColor`
equals that fold whenever at least one listed circle contributes, and for two
contributing circles the composite applies `c1` then `c2` (list order), not
the reverse. -/
theorem renderLocal_composites (position : ℤ → C3q) (radius : ℤ → ℚ) (color : ℤ → C3q)
    (pcx pcy : ℚ) (cs : List ℤ) (numCircles : ℕ) (list : ℕ → ℤ) (bg nc0 : C4q)
    (hlen : cs.length ≤ numCircles)
    (hlist : ∀ k (hk : k < cs.length), list k = cs.get ⟨k, hk⟩)
    (hsent : cs.length < numCircles → list cs.length < 0)
    (hpos : ∀ c ∈ cs, 0 ≤ c) :
    (renderPixelGo position radius color pcx pcy list numCircles 0 bg nc0).1 =
      renderSpecComposite position radius color pcx pcy cs bg ∧
    ((∃ c ∈ cs, contributesAt position radius pcx pcy c) →
      (renderPixelGo position radius color pcx pcy list numCircles 0 bg nc0).2 =
        renderSpecComposite position radius color pcx pcy cs bg) ∧
    (∀ c1 c2 : ℤ, ∀ ex : C4q,
      contributesAt position radius pcx pcy c1 →
      contributesAt position radius pcx pcy c2 →
      renderSpecComposite position radius color pcx pcy [c1, c2] ex =
        overOp color c2 (overOp color c1 ex)) := by
  have h := renderLoop_spec position radius color pcx pcy cs numCircles 0 list bg nc0 hlen
    (by intro k hk; simpa using hlist k hk)
    (by intro hh; simpa using hsent hh) hpos
  refine ⟨by rw [h], ?_, ?_⟩
  · intro hex
    rw [h]
    show (if ∃ c ∈ cs, contributesAt position radius pcx pcy c then
        renderSpecComposite position radius color pcx pcy cs bg else nc0) =
      renderSpecComposite position radius color pcx pcy cs bg
    rw [if_pos hex]
  · intro c1 c2 ex h1 h2
    unfold renderSpecComposite
    simp only [List.foldl_cons, List.foldl_nil]
    rw [if_pos h1, if_pos h2]

theorem renderLocal_composites_witness :
    (renderPixelGo posW radW colW (1/2) (1/2) listW 2 0 ⟨1,1,1,1⟩ ⟨9,9,9,9⟩).1 =
      renderSpecComposite posW radW colW (1/2) (1/2) [0, 1] ⟨1,1,1,1⟩ ∧
    ((∃ c ∈ [(0:ℤ), 1], contributesAt posW radW (1/2) (1/2) c) →
      (renderPixelGo posW radW colW (1/2) (1/2) listW 2 0 ⟨1,1,1,1⟩ ⟨9,9,9,9⟩).2 =
        renderSpecComposite posW radW colW (1/2) (1/2) [0, 1] ⟨1,1,1,1⟩) ∧
    (∀ c1 c2 : ℤ, ∀ ex : C4q,
      contributesAt posW radW (1/2) (1/2) c1 →
      contributesAt posW radW (1/2) (1/2) c2 →
      renderSpecComposite posW radW colW (1/2) (1/2) [c1, c2] ex =
        overOp colW c2 (overOp colW c1 ex)) :=
  renderLocal_composites posW radW colW (1/2) (1/2) [0, 1] 2 listW ⟨1,1,1,1⟩ ⟨9,9,9,9⟩
    (by decide)
    (by
      intro k hk
      rcases k with _ | _ | k
      · rfl
      · rfl
      · exact absurd hk (by simp))
    (fun hh => absurd hh (by decide))
    (by decide)

/-- C3: refuted as stated — the store at the end of `kernelRenderPixelsLocal`
writes `newColor`, a local that is only assigned inside the
some-circle-contributed branch, instead of `existingColor`.  In the claim's
own end-to-end scene (one flat red circle, radius 1/10, centered in a 64×64
image, alpha 1/2, pre-cleared white background, uninitialized `newColor`
modelled as ⟨9,9,9,9⟩): the corner pixel (0,0), outside the circle, is
overwritten with the uninitialized value instead of staying white, while the
center pixel (32,32) does get the claimed blend 0.5·color + 0.5·white. -/
theorem renderPixels_uninitialized_write :
    kernelRenderPixelsLocal 64 64 64 1 listC3 posW radW (fun _ => ⟨1, 0, 0⟩) 0 0
        ⟨1,1,1,1⟩ ⟨9,9,9,9⟩ = ⟨9,9,9,9⟩ ∧
    ((⟨9,9,9,9⟩ : C4q) ≠ ⟨1,1,1,1⟩) ∧
    kernelRenderPixelsLocal 64 64 64 1 listC3 posW radW (fun _ => ⟨1, 0, 0⟩) 32 32
        ⟨1,1,1,1⟩ ⟨9,9,9,9⟩ = ⟨1, 1/2, 1/2, 3/2⟩ := by
  refine ⟨?_, ?_, ?_⟩
  · unfold kernelRenderPixelsLocal listC3 posW radW
    norm_num [renderPixelGo, C4q.mk.injEq]
  · intro h
    have hx := congrArg C4q.x h
    norm_num at hx
  · unfold kernelRenderPixelsLocal listC3 posW radW
    norm_num [renderPixelGo, C4q.mk.injEq]

end Render
